import Mathlib

/-!
Verification development for `tools/slashc.py`, a slash-command compiler:
it parses Markdown files (YAML front matter plus named ```bash fences),
compiles the fenced blocks into one shell script, runs it in a container
and verifies declared outputs.

Python strings are modelled as `List Char` (`PyStr`).  The regular
expressions of the source are modelled by explicit scanners that follow
CPython `re` semantics (leftmost match, alternation order, greedy and
lazy backtracking priority) for the three concrete patterns the source
uses.  Character classes (`\s`, `\w`, `str.strip`) are modelled faithfully
on the Latin-1 range, which covers all inputs considered here; YAML
parsing and the JSON-schema check are black boxes, passed as parameters,
exactly as the specification treats them.
-/

/-- Python strings, modelled as lists of characters. -/
abbrev PyStr := List Char

/-- Python's `\s` / `str.isspace` character class, on the Latin-1 range:
tab, newline, vertical tab, form feed, carriage return, the four
information-separator controls 0x1C-0x1F, space, next-line 0x85 and
no-break space 0xA0. -/
def isPySpace (c : Char) : Bool :=
  (9 ≤ c.val && c.val ≤ 13) || (28 ≤ c.val && c.val ≤ 32) || c.val == 0x85 || c.val == 0xA0

/-- ASCII word characters: exactly the class `[A-Za-z0-9_]`. -/
def asciiWordChar (c : Char) : Bool :=
  ('0' ≤ c && c ≤ '9') || ('A' ≤ c && c ≤ 'Z') || ('a' ≤ c && c ≤ 'z') || c == '_'

/-- The restriction to the Latin-1 range of Python's `\w` for str (the
full class is Unicode-wide): ASCII word characters plus the Latin-1
letters and numeric characters the Unicode database classifies as word
characters (ª ² ³ µ ¹ º ¼ ½ ¾ and the letters À-ÿ except × ÷).  It agrees
with Python's `\w` on every character up to 0xFF and is false above;
theorems that rely on it therefore carry a Latin-1 scope hypothesis
(`isLatin1`). -/
def pyIsWordChar (c : Char) : Bool :=
  asciiWordChar c ||
  c.val == 0xAA || c.val == 0xB2 || c.val == 0xB3 || c.val == 0xB5 ||
  c.val == 0xB9 || c.val == 0xBA || c.val == 0xBC || c.val == 0xBD || c.val == 0xBE ||
  (0xC0 ≤ c.val && c.val ≤ 0xD6) || (0xD8 ≤ c.val && c.val ≤ 0xF6) ||
  (0xF8 ≤ c.val && c.val ≤ 0xFF)

/-- The Latin-1 range, on which this file's `\s` and `\w` tables coincide
with Python's str character classes. -/
def isLatin1 (c : Char) : Bool := c.val ≤ 0xFF

/-- Python `str.strip()`: drop `\s` characters from both ends. -/
def pyStrip (s : PyStr) : PyStr :=
  ((s.dropWhile isPySpace).reverse.dropWhile isPySpace).reverse

/-- Drop the (maximal) leading whitespace run. -/
def afterWs (s : PyStr) : PyStr := s.dropWhile isPySpace

/-- Does `pat` occur as a contiguous subsequence of `s`? -/
def containsSeq (pat : PyStr) : PyStr → Bool
  | [] => pat.isPrefixOf []
  | c :: r => pat.isPrefixOf (c :: r) || containsSeq pat r

/-- The literal `---`. -/
def dashes : PyStr := ['-', '-', '-']

/-- The literal triple backtick. -/
def ticks3 : PyStr := ['\x60', '\x60', '\x60']

/-- The literal `yaml`. -/
def yamlTag : PyStr := ['y', 'a', 'm', 'l']

/-- The literal `bash`. -/
def bashTag : PyStr := ['b', 'a', 's', 'h']

/-- Index of the last `'\n'` in a list, if any. -/
def lastNewline : PyStr → Option Nat
  | [] => none
  | c :: rest =>
    match lastNewline rest with
    | some i => some (i + 1)
    | none => if c = '\n' then some 0 else none

/-!
## The fence split

`re.split(r'^(?:---\s*\n|\s*\x60\x60\x60)', content, flags=re.MULTILINE)`
(source line 40).  A match can only start at a line start.  The first
alternative is literal `---` followed by a greedy whitespace run that must
end with a newline (greediness backtracks to the last newline of the
maximal run); the second is a greedy whitespace run followed by three
backticks (backticks are not whitespace, so only the maximal run can
precede them).  Alternatives are tried in order.
-/

/-- First alternative `---\s*\n`: returns the match length. -/
def matchAlt1 (cs : PyStr) : Option Nat :=
  if dashes.isPrefixOf cs then
    match lastNewline ((cs.drop 3).takeWhile isPySpace) with
    | some i => some (3 + i + 1)
    | none => none
  else none

/-- Second alternative `\s*` followed by three backticks. -/
def matchAlt2 (cs : PyStr) : Option Nat :=
  let w := cs.takeWhile isPySpace
  if ticks3.isPrefixOf (cs.drop w.length) then some (w.length + 3) else none

/-- The split pattern, alternatives in Python's order. -/
def matchMarker (cs : PyStr) : Option Nat :=
  match matchAlt1 cs with
  | some n => some n
  | none => matchAlt2 cs

/-- Core scanner for `re.split`.  Consumes one character per step.
`skip` counts remaining characters of a match still to be discarded
(during which no new match may start: matches do not overlap), `atLS`
records whether the current position is a line start, `acc` is the
segment being accumulated. -/
def scanA : PyStr → Nat → Bool → PyStr → List PyStr
  | [], _, _, acc => [acc]
  | c :: rest, skip + 1, _, acc => scanA rest skip (c = '\n') acc
  | c :: rest, 0, atLS, acc =>
    if atLS then
      match matchMarker (c :: rest) with
      | some n => acc :: scanA rest (n - 1) false []
      | none => scanA rest 0 (c = '\n') (acc ++ [c])
    else scanA rest 0 (c = '\n') (acc ++ [c])

/-- `re.split` of source line 40 on the whole document. -/
def pySplit (content : PyStr) : List PyStr := scanA content 0 true []

example : pySplit "hello".toList = ["hello".toList] := by decide

example :
    pySplit "---\nslash: x\n---\n\x60\x60\x60bash name=b\necho hi\n\x60\x60\x60\n".toList =
      [[], "slash: x\n".toList, [], "bash name=b\necho hi\n".toList, ['\n']] := by decide

example :
    pySplit "---\nslash: x\n---\n\n\x60\x60\x60bash name=b\necho hi\n\x60\x60\x60".toList =
      [[], "slash: x\n".toList, [], "bash name=b\necho hi\n".toList, []] := by decide

example :
    pySplit "--- \t\nslash: x\n---\n\x60\x60\x60bash name=b\necho hi\n\x60\x60\x60\nrest".toList =
      [[], "slash: x\n".toList, [], "bash name=b\necho hi\n".toList, "\nrest".toList] := by
  decide

example :
    pySplit "----\nx\n\x60\x60\x60py\ny\n\x60\x60\x60\n".toList =
      ["----\nx\n".toList, "py\ny\n".toList, ['\n']] := by decide

example :
    pySplit "  \x60\x60\x60bash name=a\nz\n  \x60\x60\x60  \nmore".toList =
      [[], "bash name=a\nz\n".toList, "  \nmore".toList] := by decide

example :
    pySplit "---\na: 1\n---\n\x60\x60\x60bash name=b\n\n\n\x60\x60\x60\n".toList =
      [[], "a: 1\n".toList, [], "bash name=b\n".toList, ['\n']] := by decide

example : pySplit "a\n---\nb\n".toList = ["a\n".toList, "b\n".toList] := by decide

/-!
## The prose check

Source lines 53 and 57 remove the front-matter block and all fenced
blocks from the raw text before checking that nothing else remains:

  re.sub(r'^\s*---\s*.*?^\s*---\s*', '', content, flags=re.M|re.S)
  re.sub(r'^\s*[ticks].*?^\s*[ticks]\s*', '', prose, flags=re.M|re.S)

A match starts at a line start with a greedy whitespace run followed by
the opening literal.  The closing literal must sit at a line start after
its own greedy whitespace run; the lazy `.*?` selects the earliest such
position, except that in the first pattern the greedy `\s*` directly
after the opening `---` is given priority, so closing positions inside
that run are used only when no later closing exists (checked against
CPython).  The trailing `\s*` is greedy.  `re.sub` removes the leftmost
match, then continues scanning after it (line starts keep their meaning
from the original string).
-/

/-- Offset of the first position at a line start (the previous character
is a newline) from which, after the maximal whitespace run, `pat`
follows.  `prev` is the character just before `s`. -/
def findClose (pat : PyStr) : PyStr → Char → Option Nat
  | [], prev => if (prev == '\n') && pat.isPrefixOf (afterWs []) then some 0 else none
  | c :: r, prev =>
    if (prev == '\n') && pat.isPrefixOf (afterWs (c :: r)) then some 0
    else Option.map (· + 1) (findClose pat r c)

/-- Match of `^\s*---\s*.*?^\s*---\s*` starting at the current position
(which must be a line start); returns the total match length. -/
def matchA (cs : PyStr) : Option Nat :=
  let w1 := cs.takeWhile isPySpace
  let r1 := cs.drop w1.length
  if dashes.isPrefixOf r1 then
    let s2 := r1.drop 3
    let w2 := s2.takeWhile isPySpace
    let qOpt :=
      match findClose dashes (s2.drop w2.length) (w2.getLastD '-') with
      | some q => some (w2.length + q)
      | none =>
        match lastNewline w2 with
        | some i =>
          if dashes.isPrefixOf (afterWs (s2.drop w2.length)) then some (i + 1) else none
        | none => none
    match qOpt with
    | some q =>
      let run3 := (s2.drop q).takeWhile isPySpace
      let rest3 := (s2.drop q).drop (run3.length + 3)
      some (w1.length + 3 + q + run3.length + 3 + (rest3.takeWhile isPySpace).length)
    | none => none
  else none

/-- Match of the fence-removal pattern starting at the current position
(which must be a line start); returns the total match length. -/
def matchB (cs : PyStr) : Option Nat :=
  let w1 := cs.takeWhile isPySpace
  let r1 := cs.drop w1.length
  if ticks3.isPrefixOf r1 then
    let s2 := r1.drop 3
    match findClose ticks3 s2 '\x60' with
    | some q =>
      let run3 := (s2.drop q).takeWhile isPySpace
      let rest3 := (s2.drop q).drop (run3.length + 3)
      some (w1.length + 3 + q + run3.length + 3 + (rest3.takeWhile isPySpace).length)
    | none => none
  else none

/-- Core scanner for `re.sub(pat, '', ...)`: keep characters outside
matches, drop matched spans, never start a match inside one. -/
def subScan (m : PyStr → Option Nat) : PyStr → Nat → Bool → PyStr
  | [], _, _ => []
  | c :: rest, skip + 1, _ => subScan m rest skip (c = '\n')
  | c :: rest, 0, atLS =>
    if atLS then
      match m (c :: rest) with
      | some n => subScan m rest (n - 1) false
      | none => c :: subScan m rest 0 (c = '\n')
    else c :: subScan m rest 0 (c = '\n')

/-- The front-matter removal of source line 53. -/
def subDashes (content : PyStr) : PyStr := subScan matchA content 0 true

/-- The fence removal of source line 57. -/
def subTicks (content : PyStr) : PyStr := subScan matchB content 0 true

/-- The prose-check residue: what is left after both removals. -/
def proseResidue (content : PyStr) : PyStr := subTicks (subDashes content)

example :
    proseResidue "---\nslash: x\n---\n\x60\x60\x60bash name=b\necho hi\n\x60\x60\x60\n".toList
      = [] := by decide

example :
    proseResidue "--- \t\nslash: x\n---\n\x60\x60\x60bash name=b\necho hi\n\x60\x60\x60\nrest".toList
      = "rest".toList := by decide

example : proseResidue "----\nx\n\x60\x60\x60py\ny\n\x60\x60\x60\n".toList = "----\nx\n".toList := by
  decide

example :
    proseResidue "  \x60\x60\x60bash name=a\nz\n  \x60\x60\x60  \nmore".toList = "more".toList := by
  decide

example : proseResidue "a\n---\nb\n".toList = "a\n---\nb\n".toList := by decide

example : subDashes "---  \n  ---\nSTRAY\n---\nend".toList = "end".toList := by decide

example : subDashes "---  \n  ---\nSTRAY\nend".toList = "STRAY\nend".toList := by decide

/-!
## Name extraction and the segment walk
-/

/-- The literal `name=`. -/
def nameEq : PyStr := ['n', 'a', 'm', 'e', '=']

/-- `re.search(r'name=(\w+)', header)` (source line 92): scan left to
right; at the first position where `name=` is followed by at least one
word character, return the maximal word-character run after the `=`.
Faithful on Latin-1 headers; beyond that range `pyIsWordChar` truncates
Python's Unicode-wide `\w`, so theorems about it are scoped to
`isLatin1` inputs. -/
def reSearchName : PyStr → Option PyStr
  | [] => none
  | c :: rest =>
    let g := ((c :: rest).drop 5).takeWhile pyIsWordChar
    if nameEq.isPrefixOf (c :: rest) && !g.isEmpty then some g
    else reSearchName rest

/-- The failure modes of `parse_markdown` (each is a diagnostic plus
`sys.exit(1)` in the source).  `strayContent` is the prose-check failure
of line 61, `unexpectedSegment` the walk's safeguard of line 108. -/
inductive ParseError where
  | missingFrontMatter
  | strayContent
  | yamlParseError (msg : PyStr)
  | incompleteBash
  | missingBlockName
  | duplicateBlockName
  | unexpectedSegment
  | noBashBlocks
  deriving DecidableEq, Repr

/-- The loop of source lines 76-110 over the segments after the front
matter.  `names` is the `block_names` set (kept in insertion order),
`acc` the `bash_blocks` list.  A `yaml`-headed segment is skipped with
the segment after it; a `bash`-headed segment consumes the segment after
it as the block body (stripped), requires a `name=` attribute and a
fresh name; any other non-whitespace segment is rejected. -/
def walkSegs : List PyStr → List PyStr → List PyStr → Except ParseError (List PyStr × List PyStr)
  | [], names, acc => .ok (names, acc)
  | p :: rest, names, acc =>
    let s := pyStrip p
    if yamlTag.isPrefixOf s then
      match rest with
      | [] => .ok (names, acc)
      | _ :: rest2 => walkSegs rest2 names acc
    else if bashTag.isPrefixOf s then
      match rest with
      | [] => .error .incompleteBash
      | p2 :: rest2 =>
        match reSearchName s with
        | none => .error .missingBlockName
        | some nm =>
          if nm ∈ names then .error .duplicateBlockName
          else walkSegs rest2 (names ++ [nm]) (acc ++ [pyStrip p2])
    else if s.isEmpty then walkSegs rest names acc
    else .error .unexpectedSegment

/-- Everything `parse_markdown` computes: the loaded front matter, the
collected block names and the collected block bodies. -/
structure ParseOut (α : Type) where
  fm : α
  names : List PyStr
  blocks : List PyStr
  deriving Repr

/-- `parse_markdown` (source lines 34-116), parameterised by the YAML
loader (`yaml.safe_load` is a black box): split on the fence pattern,
require a front matter segment, run the prose check, load the YAML,
walk the remaining segments, require at least one bash block. -/
def parse_core {α : Type} (yamlLoad : PyStr → Except PyStr α) (content : PyStr) :
    Except ParseError (ParseOut α) :=
  let parts := pySplit content
  if parts.length < 3 || (pyStrip (parts.getD 1 [])).isEmpty then .error .missingFrontMatter
  else if !(pyStrip (proseResidue content)).isEmpty then .error .strayContent
  else
    match yamlLoad (parts.getD 1 []) with
    | .error e => .error (.yamlParseError e)
    | .ok fm =>
      match walkSegs (parts.drop 2) [] [] with
      | .error e => .error e
      | .ok (names, blocks) =>
        if blocks.isEmpty then .error .noBashBlocks else .ok ⟨fm, names, blocks⟩

/-- The value `parse_markdown` returns: front matter and block bodies. -/
def parse_markdown {α : Type} (yamlLoad : PyStr → Except PyStr α) (content : PyStr) :
    Except ParseError (α × List PyStr) :=
  (parse_core yamlLoad content).map fun r => (r.fm, r.blocks)

/-- The block names `parse_markdown` collects along the way. -/
def parse_names {α : Type} (yamlLoad : PyStr → Except PyStr α) (content : PyStr) :
    Except ParseError (List PyStr) :=
  (parse_core yamlLoad content).map fun r => r.names

deriving instance DecidableEq for Except

/-- A trivial YAML loader that returns the raw front-matter text; used to
instantiate the black box where the YAML value itself is irrelevant. -/
def yamlRaw : PyStr → Except PyStr PyStr := fun s => .ok s

/-!
## Script compilation (source lines 126-140)
-/

/-- Python `'\n'.join`. -/
def joinNl : List PyStr → PyStr
  | [] => []
  | [x] => x
  | x :: rest => x ++ '\n' :: joinNl rest

/-- The shebang line. -/
def shebang : PyStr := "#!/bin/bash".toList

/-- The strict-mode line. -/
def strictMode : PyStr := "set -euxo pipefail".toList

/-- The text `compile_script` writes: preamble, then each block followed
by an empty line, joined with newlines. -/
def compile_script (bash_blocks : List PyStr) : PyStr :=
  joinNl ([shebang, strictMode, []] ++ bash_blocks.flatMap fun b => [b, []])

/-- `TEMP_DIR` of source line 20. -/
def TEMP_DIR : PyStr := ".out/tmp".toList

/-- `LOG_DIR` of source line 21. -/
def LOG_DIR : PyStr := ".out/logs".toList

/-- The path `compile_script` writes to: `TEMP_DIR/<slash>.sh`. -/
def compiled_script_path (slash : PyStr) : PyStr :=
  TEMP_DIR ++ '/' :: (slash ++ ".sh".toList)

/-- The log path of source line 171: `LOG_DIR/<slash>.log`. -/
def log_path (slash : PyStr) : PyStr := LOG_DIR ++ '/' :: (slash ++ ".log".toList)

/-- `pathlib.Path(...).name`: the component after the last slash. -/
def pathName (p : PyStr) : PyStr :=
  p.foldl (fun acc c => if c = '/' then [] else acc ++ [c]) []

/-!
## Container execution (source lines 142-205)
-/

/-- The argument vector of source lines 161-169. -/
def docker_cmd (cwd image slash : PyStr) : List PyStr :=
  ["docker".toList, "run".toList, "--rm".toList,
   "-v".toList, cwd ++ ":/src:ro".toList,
   "-v".toList, cwd ++ "/.out:/out".toList,
   "-w".toList, "/src".toList,
   "--entrypoint".toList, "/bin/sh".toList,
   image,
   "/tmp/".toList ++ pathName (compiled_script_path slash)]

/-- Outcome of the `subprocess.run` call: the binary may be missing
(`FileNotFoundError`), otherwise the child exits with a code. -/
inductive DockerInvoke where
  | unavailable
  | exited (code : Int)

/-- Result of `run_docker`: success, child failure (propagating the
child's exit code), missing declared outputs (listing them in order), or
a missing container runtime. -/
inductive RunResult where
  | ok
  | containerError (code : Int)
  | outputsMissing (missing : List PyStr)
  | runnerUnavailable
  deriving DecidableEq

/-- The verification loop of source lines 186-193: one existence check
per declared output, recording every missing path, never stopping early. -/
def verify_outputs (fsExists : PyStr → Bool) (outputs : List PyStr) : Bool × List PyStr :=
  outputs.foldl (fun acc o => if fsExists o then acc else (false, acc.2 ++ [o])) (true, [])

/-- `run_docker` (source lines 142-205) with the container invocation and
host filesystem abstracted: on non-zero exit fail with the child's code
and do not look at outputs; on zero exit verify every declared output. -/
def run_docker (invoke : DockerInvoke) (fsExists : PyStr → Bool) (outputs : List PyStr) :
    RunResult :=
  match invoke with
  | .unavailable => .runnerUnavailable
  | .exited c =>
    if c ≠ 0 then .containerError c
    else
      let v := verify_outputs fsExists outputs
      if v.1 then .ok else .outputsMissing v.2

/-- The process exit status each `run_docker` outcome produces:
`sys.exit(e.returncode)` on child failure, `sys.exit(1)` otherwise. -/
def exitStatus : RunResult → Int
  | .ok => 0
  | .containerError c => c
  | .outputsMissing _ => 1
  | .runnerUnavailable => 1

/-!
## File handling (source lines 208-234)
-/

/-- The front-matter fields `handle_file` reads after schema validation. -/
structure FrontMatter where
  slash : PyStr
  image : PyStr
  outputs : List PyStr

/-- The two CLI modes. -/
inductive Mode where
  | validate
  | run

/-- Filesystem effects `handle_file` can perform, in order: reading the
document, writing and chmod-ing the compiled script, creating the output
directory, opening (truncating) the log file, deleting the script. -/
inductive Eff where
  | readDoc
  | writeScript (p : PyStr)
  | chmodScript (p : PyStr)
  | mkdirOut
  | writeLog (p : PyStr)
  | unlinkScript (p : PyStr)
  deriving DecidableEq

/-- Outcome of `handle_file`. -/
inductive HandleResult where
  | parseFailed (e : ParseError)
  | schemaFailed
  | validated
  | runFailed (r : RunResult)
  | ranOk
  deriving DecidableEq

/-- `handle_file` (source lines 208-234) with its filesystem effects made
explicit: parse the document (one read), validate the front matter
against the schema (a black-box predicate), stop there in validate mode;
in run mode compile the script (write + chmod), invoke the container
(which first creates `.out` and opens the log file), and delete the
script only after a fully successful run. -/
def handle_file (yamlLoad : PyStr → Except PyStr FrontMatter) (schemaOk : FrontMatter → Bool)
    (invoke : DockerInvoke) (fsExists : PyStr → Bool) (content : PyStr) (mode : Mode) :
    HandleResult × List Eff :=
  match parse_markdown yamlLoad content with
  | .error e => (.parseFailed e, [.readDoc])
  | .ok (fm, blocks) =>
    if !schemaOk fm then (.schemaFailed, [.readDoc])
    else
      match mode with
      | .validate => (.validated, [.readDoc])
      | .run =>
        let sp := compiled_script_path fm.slash
        let _script := compile_script blocks
        match run_docker invoke fsExists fm.outputs with
        | .ok =>
          (.ranOk,
            [.readDoc, .writeScript sp, .chmodScript sp, .mkdirOut, .writeLog (log_path fm.slash),
             .unlinkScript sp])
        | r =>
          (.runFailed r,
            [.readDoc, .writeScript sp, .chmodScript sp, .mkdirOut, .writeLog (log_path fm.slash)])

/-- Does an effect modify the filesystem? Only the document read does not. -/
def effWrites : Eff → Bool
  | .readDoc => false
  | _ => true

/-!
## Concrete-evaluation checks used while developing the claim theorems
-/

/-- The document of the C1 failing input. -/
def docC1 : PyStr := "---\nslash: x\n---\n\x60\x60\x60bash name=b\necho hi\n\x60\x60\x60\n".toList

example : parse_markdown yamlRaw docC1 = .ok ("slash: x\n".toList, [[]]) := by decide

example :
    parse_markdown yamlRaw
      ("---\nslash: x\n---\n\x60\x60\x60bash name=b\necho hi\n\x60\x60\x60\n\x60\x60\x60bash name=c\necho bye\n\x60\x60\x60\n".toList)
      = .ok ("slash: x\n".toList, [[], []]) := by decide

example :
    parse_markdown yamlRaw ("x\n\x60\x60\x60bash name=a\ny\n\x60\x60\x60\n".toList)
      = .error .strayContent := by decide

example :
    parse_markdown yamlRaw ("---\na: 1\n---\n\x60\x60\x60bashful name=q\nx\n\x60\x60\x60\n".toList)
      = .ok ("a: 1\n".toList, [[]]) := by decide

example :
    parse_names yamlRaw ("---\na: 1\n---\n\x60\x60\x60bash name=é\necho hi\n\x60\x60\x60\n".toList)
      = .ok [['é']] := by decide

example :
    parse_markdown yamlRaw
      ("---\na: 1\n---\n\x60\x60\x60bash name=b\nx\n\x60\x60\x60\n\x60\x60\x60bash name=b\ny\n\x60\x60\x60\n".toList)
      = .error .duplicateBlockName := by decide

/-!
## Helper lemmas
-/

lemma joinNl_cons_cons (x y : PyStr) (t : List PyStr) :
    joinNl (x :: y :: t) = x ++ '\n' :: joinNl (y :: t) := rfl

lemma joinNl_blocks (bs : List PyStr) :
    joinNl ([] :: bs.flatMap fun b => [b, []]) =
      bs.flatMap fun b => '\n' :: (b ++ ['\n']) := by
  induction bs with
  | nil => rfl
  | cons b rest ih =>
    simp only [List.flatMap_cons, List.cons_append, List.nil_append]
    rw [joinNl_cons_cons, joinNl_cons_cons]
    simp [ih]

lemma verify_outputs_fold (fsExists : PyStr → Bool) (outs : List PyStr) (b : Bool) (acc : List PyStr) :
    outs.foldl (fun acc o => if fsExists o then acc else (false, acc.2 ++ [o])) (b, acc) =
      (b && outs.all fsExists, acc ++ outs.filter fun o => !fsExists o) := by
  induction outs generalizing b acc with
  | nil => simp
  | cons o rest ih =>
    by_cases h : fsExists o
    · simp [h, ih]
    · simp [h, ih, List.filter_cons]

lemma verify_outputs_spec (fsExists : PyStr → Bool) (outs : List PyStr) :
    verify_outputs fsExists outs = (outs.all fsExists, outs.filter fun o => !fsExists o) := by
  simp [verify_outputs, verify_outputs_fold]

lemma pathStep_noSlash (t : PyStr) (acc : PyStr) (h : '/' ∉ t) :
    t.foldl (fun acc c => if c = '/' then [] else acc ++ [c]) acc = acc ++ t := by
  induction t generalizing acc with
  | nil => simp
  | cons c rest ih =>
    have hc : c ≠ '/' := fun hc => h (hc ▸ List.mem_cons_self c rest)
    have hr : '/' ∉ rest := fun hm => h (List.mem_cons_of_mem c hm)
    simp [hc, ih _ hr]

lemma pathName_compiled (slash : PyStr) (h : '/' ∉ slash) :
    pathName (compiled_script_path slash) = slash ++ ".sh".toList := by
  have hsh : '/' ∉ ".sh".toList := by decide
  have e1 : compiled_script_path slash = (".out/tmp/".toList ++ slash) ++ ".sh".toList := by
    simp [compiled_script_path, TEMP_DIR]
  rw [pathName, e1, List.foldl_append, List.foldl_append]
  have e2 : List.foldl (fun acc c => if c = '/' then [] else acc ++ [c]) [] ".out/tmp/".toList
      = [] := by decide
  rw [e2, pathStep_noSlash slash [] h, pathStep_noSlash _ _ hsh]
  simp

/-!
## Claim theorems
-/

/-- C1 (code bug): on a well-formed document with front matter and one
bash fence with body `echo hi`, `parse_markdown` succeeds but returns the
empty string as the block body.  The split of line 40 does not separate
the fence header from the fence body (both land in one segment), so
`parts[i+1]` — taken as the body on line 89 — is the whitespace between
the closing fence and the next marker, not the fence's content. -/
theorem parse_markdown_drops_fence_bodies :
    parse_markdown yamlRaw docC1 = .ok ("slash: x\n".toList, [[]]) ∧
    pyStrip "echo hi".toList ≠ [] := by decide

/-- C2: the compiled script is exactly the two-line strict-mode preamble
followed by each block body in order, each preceded by a blank line; in
particular for bodies `echo a`, `echo b` it is the exact expected text. -/
theorem compile_script_exact :
    (∀ blocks : List PyStr,
      compile_script blocks =
        "#!/bin/bash\nset -euxo pipefail\n".toList ++
          blocks.flatMap fun b => '\n' :: (b ++ ['\n'])) ∧
    compile_script ["echo a".toList, "echo b".toList] =
      "#!/bin/bash\nset -euxo pipefail\n\necho a\n\necho b\n".toList := by
  constructor
  · intro blocks
    show joinNl _ = _
    simp only [List.cons_append, List.nil_append]
    rw [joinNl_cons_cons, joinNl_cons_cons, joinNl_blocks]
    rfl
  · decide

/-- C3: when the container exits zero and some declared output is
missing, `run_docker` fails (exit status 1) and the reported missing
list is exactly the missing outputs, in order — every missing path is
named, not only the first. -/
theorem run_docker_reports_all_missing (fsExists : PyStr → Bool) (outs : List PyStr)
    (h : ∃ o ∈ outs, fsExists o = false) :
    run_docker (.exited 0) fsExists outs =
        .outputsMissing (outs.filter fun o => !fsExists o) ∧
      exitStatus (run_docker (.exited 0) fsExists outs) = 1 ∧
      ∀ o ∈ outs, fsExists o = false → o ∈ outs.filter fun o => !fsExists o := by
  obtain ⟨o₀, ho₀, hmiss⟩ := h
  have hall : outs.all fsExists = false := by
    refine Bool.eq_false_iff.mpr fun htrue => ?_
    have hx := List.all_eq_true.mp htrue o₀ ho₀
    rw [hmiss] at hx
    exact Bool.false_ne_true hx
  have hrd : run_docker (.exited 0) fsExists outs =
      .outputsMissing (outs.filter fun o => !fsExists o) := by
    simp [run_docker, verify_outputs_spec, hall]
  refine ⟨hrd, by rw [hrd]; rfl, ?_⟩
  intro o ho hf
  simp [List.mem_filter, ho, hf]

/-- Witness for C3 at outputs `[a, b, c]` with only `b` present: the
failure names both `a` and `c`. -/
theorem run_docker_reports_all_missing_witness :
    run_docker (.exited 0) (fun o => o == "b".toList)
        ["a".toList, "b".toList, "c".toList] =
        .outputsMissing ["a".toList, "c".toList] ∧
      "a".toList ∈ ["a".toList, "c".toList] ∧ "c".toList ∈ ["a".toList, "c".toList] := by
  have h := run_docker_reports_all_missing (fun o => o == "b".toList)
    ["a".toList, "b".toList, "c".toList] ⟨"a".toList, by decide, by decide⟩
  exact ⟨h.1.trans (by decide), by decide, by decide⟩

/-- C4: the container invocation mounts the working directory read-only
at `/src`, mounts its `.out` subdirectory read-write at `/out`, sets the
working directory to `/src`, overrides the entrypoint to `/bin/sh`, and
passes `/tmp/<slash>.sh` — `/tmp/` plus the compiled script's file
name — as the single argument after the image. -/
theorem docker_cmd_shape (cwd image slash : PyStr) (h : '/' ∉ slash) :
    docker_cmd cwd image slash =
      ["docker".toList, "run".toList, "--rm".toList,
       "-v".toList, cwd ++ ":/src:ro".toList,
       "-v".toList, cwd ++ "/.out:/out".toList,
       "-w".toList, "/src".toList,
       "--entrypoint".toList, "/bin/sh".toList,
       image,
       "/tmp/".toList ++ (slash ++ ".sh".toList)] := by
  simp [docker_cmd, pathName_compiled slash h]

/-- Witness for C4 at a concrete working directory, image and name. -/
theorem docker_cmd_shape_witness :
    docker_cmd "/w".toList "alpine:3".toList "hello".toList =
      ["docker".toList, "run".toList, "--rm".toList,
       "-v".toList, "/w:/src:ro".toList,
       "-v".toList, "/w/.out:/out".toList,
       "-w".toList, "/src".toList,
       "--entrypoint".toList, "/bin/sh".toList,
       "alpine:3".toList,
       "/tmp/hello.sh".toList] := by
  have h := docker_cmd_shape "/w".toList "alpine:3".toList "hello".toList (by decide)
  exact h.trans (by decide)

/-- C5: on a non-zero container exit code the run fails with the child's
own exit code as the process exit status (for every non-zero code, so no
fixed sentinel), and output verification is not performed: the outcome
does not depend on the host filesystem at all. -/
theorem container_exit_code_propagates (c : Int) (fs fs' : PyStr → Bool)
    (outs : List PyStr) (h : c ≠ 0) :
    exitStatus (run_docker (.exited c) fs outs) = c ∧
      run_docker (.exited c) fs outs = run_docker (.exited c) fs' outs := by
  constructor
  · simp [run_docker, h, exitStatus]
  · simp [run_docker, h]

/-- Witness for C5 at exit code 7 and two filesystems that disagree on
the declared output. -/
theorem container_exit_code_propagates_witness :
    exitStatus (run_docker (.exited 7) (fun _ => false) ["a".toList]) = 7 ∧
      run_docker (.exited 7) (fun _ => false) ["a".toList] =
        run_docker (.exited 7) (fun _ => true) ["a".toList] := by
  exact container_exit_code_propagates 7 (fun _ => false) (fun _ => true) ["a".toList]
    (by decide)

/-- C10: in validate mode `handle_file`'s only filesystem effect is the
single read of the document, whatever the document contains and however
the black boxes behave: no script is written, no log touched, nothing
deleted or created. -/
theorem validate_mode_reads_only (yamlLoad : PyStr → Except PyStr FrontMatter)
    (schemaOk : FrontMatter → Bool) (invoke : DockerInvoke) (fsExists : PyStr → Bool)
    (content : PyStr) :
    (handle_file yamlLoad schemaOk invoke fsExists content .validate).2 = [.readDoc] ∧
      ∀ e ∈ (handle_file yamlLoad schemaOk invoke fsExists content .validate).2,
        effWrites e = false := by
  have h : (handle_file yamlLoad schemaOk invoke fsExists content .validate).2 =
      [.readDoc] := by
    cases hp : parse_markdown yamlLoad content with
    | error e => simp [handle_file, hp]
    | ok pr =>
      obtain ⟨fm, blocks⟩ := pr
      by_cases hs : schemaOk fm <;> simp [handle_file, hp, hs]
  refine ⟨h, ?_⟩
  rw [h]
  intro e he
  simp only [List.mem_singleton] at he
  simp [he, effWrites]

/-!
## Scanner lemmas

`lsAfter b v` is the line-start flag after scanning `v` starting from
flag `b`; `noMatchIn m ls u rest` says the matcher `m` fires at no
line-start position strictly inside `u` (with `rest` as lookahead).
-/

/-- Line-start flag after scanning `v`, starting from flag `b`. -/
def lsAfter : Bool → PyStr → Bool
  | b, [] => b
  | _, c :: v => lsAfter (c = '\n') v

/-- No match of `m` starts at a line-start position inside `u` (with the
rest of the text as lookahead). -/
def noMatchIn (m : PyStr → Option Nat) : Bool → PyStr → PyStr → Bool
  | _, [], _ => true
  | ls, c :: u, rest => (!ls || (m (c :: (u ++ rest))).isNone) && noMatchIn m (c = '\n') u rest

lemma lsAfter_append (b : Bool) (u v : PyStr) :
    lsAfter b (u ++ v) = lsAfter (lsAfter b u) v := by
  induction u generalizing b with
  | nil => rfl
  | cons c u ih => simp [lsAfter, ih]

lemma scanA_skip (u rest : PyStr) (b : Bool) (acc : PyStr) :
    scanA (u ++ rest) u.length b acc = scanA rest 0 (lsAfter b u) acc := by
  induction u generalizing b with
  | nil => rfl
  | cons c u ih => simpa [scanA, lsAfter] using ih (c = '\n')

lemma scanA_through (u rest : PyStr) (ls : Bool) (acc : PyStr)
    (h : noMatchIn matchMarker ls u rest = true) :
    scanA (u ++ rest) 0 ls acc = scanA rest 0 (lsAfter ls u) (acc ++ u) := by
  induction u generalizing ls acc with
  | nil => simp [lsAfter]
  | cons c u ih =>
    rw [noMatchIn] at h
    have h1 := (Bool.and_eq_true _ _).mp h
    have step : scanA ((c :: u) ++ rest) 0 ls acc = scanA (u ++ rest) 0 (c = '\n') (acc ++ [c]) := by
      cases ls with
      | false => simp [scanA]
      | true =>
        have hm : matchMarker (c :: (u ++ rest)) = none := by
          rcases hmm : matchMarker (c :: (u ++ rest)) with _ | n
          · rfl
          · rw [hmm] at h1; simp at h1
        simp [scanA, hm]
    rw [step, ih (c = '\n') (acc ++ [c]) h1.2]
    simp [lsAfter]

lemma scanA_match (c : Char) (u rest : PyStr) (acc : PyStr)
    (h : matchMarker (c :: (u ++ rest)) = some (u.length + 1)) :
    scanA ((c :: u) ++ rest) 0 true acc = acc :: scanA rest 0 (lsAfter false u) [] := by
  have : scanA ((c :: u) ++ rest) 0 true acc = acc :: scanA (u ++ rest) u.length false [] := by
    simp [scanA, h]
  rw [this, scanA_skip]

lemma subScan_skip (m : PyStr → Option Nat) (u rest : PyStr) (b : Bool) :
    subScan m (u ++ rest) u.length b = subScan m rest 0 (lsAfter b u) := by
  induction u generalizing b with
  | nil => rfl
  | cons c u ih => simpa [subScan, lsAfter] using ih (c = '\n')

lemma subScan_through (m : PyStr → Option Nat) (u rest : PyStr) (ls : Bool)
    (h : noMatchIn m ls u rest = true) :
    subScan m (u ++ rest) 0 ls = u ++ subScan m rest 0 (lsAfter ls u) := by
  induction u generalizing ls with
  | nil => simp [lsAfter]
  | cons c u ih =>
    rw [noMatchIn] at h
    have h1 := (Bool.and_eq_true _ _).mp h
    have step : subScan m ((c :: u) ++ rest) 0 ls = c :: subScan m (u ++ rest) 0 (c = '\n') := by
      cases ls with
      | false => simp [subScan]
      | true =>
        have hm : m (c :: (u ++ rest)) = none := by
          rcases hmm : m (c :: (u ++ rest)) with _ | n
          · rfl
          · rw [hmm] at h1; simp at h1
        simp [subScan, hm]
    rw [step, ih (c = '\n') h1.2]
    simp [lsAfter]

lemma subScan_match (m : PyStr → Option Nat) (c : Char) (u rest : PyStr)
    (h : m (c :: (u ++ rest)) = some (u.length + 1)) :
    subScan m ((c :: u) ++ rest) 0 true = subScan m rest 0 (lsAfter false u) := by
  have : subScan m ((c :: u) ++ rest) 0 true = subScan m (u ++ rest) u.length false := by
    simp [subScan, h]
  rw [this, subScan_skip]

lemma subScan_all (m : PyStr → Option Nat) (cs : PyStr) (ls : Bool)
    (h : noMatchIn m ls cs [] = true) : subScan m cs 0 ls = cs := by
  have := subScan_through m cs [] ls h
  simpa [subScan] using this

/-!
## Canonical documents

To state parser claims over a whole class of documents we render a
structured document — front-matter text plus named bash blocks — into
Markdown exactly as the documented format prescribes, under hygiene
conditions (no stray backticks or dashes, no blank-line padding) that
keep the fences unambiguous.
-/

/-- Characters that can never open or close a marker: neither a dash nor
a backtick. -/
def charOK (c : Char) : Bool := !(c == '-' || c == '\x60')

/-- The last character of `t`, or `d` if `t` is empty. -/
def lastChar : Char → PyStr → Char
  | d, [] => d
  | _, c :: t => lastChar c t

/-- Is the first character missing or non-whitespace?  (False for `[]`.) -/
def headNonWs : PyStr → Bool
  | [] => false
  | c :: _ => !isPySpace c

/-- The last character (if any) is not whitespace. -/
def endsNonWs (t : PyStr) : Bool := !isPySpace (lastChar 'x' t)

/-- No whitespace-only suffix of `t` starts at a line start (`prev` is
the character before `t`): the text has no trailing blank lines. -/
def noWsTail : Char → PyStr → Bool
  | _, [] => true
  | prev, c :: t => !((prev == '\n') && (c :: t).all isPySpace) && noWsTail c t

/-- `findClose pat` fires at no offset strictly inside `t` (`prev` the
character before `t`, `rest` the lookahead after it). -/
def fcMiss (pat : PyStr) : PyStr → Char → PyStr → Bool
  | [], _, _ => true
  | c :: t, prev, rest =>
    !((prev == '\n') && pat.isPrefixOf (afterWs ((c :: t) ++ rest))) && fcMiss pat t c rest

/-- A well-formed block name: nonempty, word characters only. -/
def wfName (n : PyStr) : Bool := !n.isEmpty && n.all pyIsWordChar

/-- A well-formed block body: nonempty, free of dashes and backticks, and
not starting or ending in whitespace. -/
def wfBody (b : PyStr) : Bool :=
  !b.isEmpty && b.all charOK && headNonWs b && endsNonWs b

/-- Well-formed front-matter text: non-whitespace content, free of dashes
and backticks, starting with a non-whitespace character, ending with a
newline, and without trailing blank lines. -/
def wfFm (fm : PyStr) : Bool :=
  !(pyStrip fm).isEmpty && fm.all charOK && headNonWs fm &&
    (lastChar ' ' fm == '\n') && noWsTail '\n' fm

/-- All blocks well-formed. -/
def wfBlocks (bs : List (PyStr × PyStr)) : Bool :=
  bs.all fun p => wfName p.1 && wfBody p.2

/-- The rendered text of one bash fence. -/
def fenceText (n b : PyStr) : PyStr :=
  ticks3 ++ bashTag ++ ' ' :: nameEq ++ n ++ '\n' :: (b ++ '\n' :: (ticks3 ++ ['\n']))

/-- The rendered text of a list of fences. -/
def fencesText : List (PyStr × PyStr) → PyStr
  | [] => []
  | (n, b) :: rest => fenceText n b ++ fencesText rest

/-- A rendered document: front matter between `---` lines, then the
fences. -/
def render (fm : PyStr) (bs : List (PyStr × PyStr)) : PyStr :=
  dashes ++ '\n' :: (fm ++ (dashes ++ '\n' :: fencesText bs))

/-- The segment the fence split produces for one fence: header line and
body in a single piece (the split does not separate them). -/
def hdrSeg (n b : PyStr) : PyStr :=
  bashTag ++ ' ' :: nameEq ++ n ++ '\n' :: (b ++ ['\n'])

/-- The segments after the front matter on a rendered document. -/
def segsOf (bs : List (PyStr × PyStr)) : List PyStr :=
  bs.flatMap fun p => [hdrSeg p.1 p.2, ['\n']]

/-!
### Small character and list lemmas
-/

lemma lastChar_irrel (t : PyStr) (d e : Char) (h : t ≠ []) : lastChar d t = lastChar e t := by
  cases t with
  | nil => exact absurd rfl h
  | cons c t' => rfl

lemma lastChar_cons_of_ne_nil (d e c : Char) (t : PyStr) (h : t ≠ []) :
    lastChar d (c :: t) = lastChar e t := by
  show lastChar c t = lastChar e t
  exact lastChar_irrel t c e h

lemma lastChar_append (d : Char) (u v : PyStr) :
    lastChar d (u ++ v) = lastChar (lastChar d u) v := by
  induction u generalizing d with
  | nil => rfl
  | cons c u ih => simp [lastChar, ih]

lemma lastChar_mem (d : Char) (t : PyStr) (h : t ≠ []) : lastChar d t ∈ t := by
  induction t generalizing d with
  | nil => exact absurd rfl h
  | cons c t ih =>
    cases t with
    | nil => simp [lastChar]
    | cons c' t' => exact List.mem_cons_of_mem c (ih c (by simp))

lemma dropWhile_of_headNonWs (t : PyStr) (h : headNonWs t = true) :
    t.dropWhile isPySpace = t := by
  cases t with
  | nil => rfl
  | cons c t =>
    rw [headNonWs] at h
    simp [List.dropWhile_cons, Bool.not_eq_true' .. ▸ h]

lemma takeWhile_nil_of_headNonWs (t : PyStr) (h : headNonWs t = true) :
    t.takeWhile isPySpace = [] := by
  cases t with
  | nil => rfl
  | cons c t =>
    rw [headNonWs] at h
    simp [List.takeWhile_cons, Bool.not_eq_true' .. ▸ h]

lemma takeWhile_append_headNonWs (u t : PyStr) (hu : u.all isPySpace = true)
    (h : headNonWs t = true) : (u ++ t).takeWhile isPySpace = u := by
  induction u with
  | nil => exact takeWhile_nil_of_headNonWs t h
  | cons c u ih =>
    simp only [List.all_cons, Bool.and_eq_true] at hu
    simp [List.takeWhile_cons, hu.1, ih hu.2]

lemma headNonWs_append (u v : PyStr) (h : u ≠ []) :
    headNonWs (u ++ v) = headNonWs u := by
  cases u with
  | nil => exact absurd rfl h
  | cons c u => rfl

lemma headNonWs_reverse (t : PyStr) (h : t ≠ []) :
    headNonWs t.reverse = endsNonWs t := by
  induction t with
  | nil => exact absurd rfl h
  | cons c t ih =>
    cases t with
    | nil => simp [headNonWs, endsNonWs, lastChar]
    | cons c' t' =>
      rw [List.reverse_cons, headNonWs_append _ _ (by simp), ih (by simp)]
      rw [endsNonWs, endsNonWs, lastChar_cons_of_ne_nil 'x' 'x' c (c' :: t') (by simp)]

lemma endsNonWs_append (u v : PyStr) (h : v ≠ []) :
    endsNonWs (u ++ v) = endsNonWs v := by
  rw [endsNonWs, endsNonWs, lastChar_append]
  cases v with
  | nil => exact absurd rfl h
  | cons c v => rfl

lemma exists_nonWs_of_endsNonWs (t : PyStr) (h1 : t ≠ []) (h2 : endsNonWs t = true) :
    ∃ x ∈ t, isPySpace x = false := by
  refine ⟨lastChar 'x' t, lastChar_mem 'x' t h1, ?_⟩
  rw [endsNonWs] at h2
  exact Bool.not_eq_true' .. ▸ h2

lemma pyStrip_sandwich (t : PyStr) (h1 : headNonWs t = true) (h2 : endsNonWs t = true) :
    pyStrip (t ++ ['\n']) = t := by
  have ht : t ≠ [] := by cases t <;> simp_all [headNonWs]
  have e1 : (t ++ ['\n']).dropWhile isPySpace = t ++ ['\n'] :=
    dropWhile_of_headNonWs (t ++ ['\n']) (by rw [headNonWs_append _ _ ht]; exact h1)
  have e2 : (t ++ ['\n']).reverse = '\n' :: t.reverse := by
    rw [List.reverse_append]; rfl
  have e3 : ('\n' :: t.reverse).dropWhile isPySpace = t.reverse := by
    rw [List.dropWhile_cons]
    simp only [show isPySpace '\n' = true from rfl, if_true]
    exact dropWhile_of_headNonWs _ (by rw [headNonWs_reverse t ht]; exact h2)
  rw [pyStrip, e1, e2, e3, List.reverse_reverse]

/-!
### Matcher-failure lemmas
-/

lemma charOK_spec (c : Char) (h : charOK c = true) : c ≠ '-' ∧ c ≠ '\x60' := by
  rw [charOK] at h
  simp only [Bool.not_eq_true', Bool.or_eq_false_iff, beq_eq_false_iff_ne, ne_eq] at h
  exact h

lemma mem_of_dropWhile (p : Char → Bool) (l : PyStr) (x : Char)
    (h : x ∈ l.dropWhile p) : x ∈ l := by
  induction l with
  | nil => simp at h
  | cons c t ih =>
    rw [List.dropWhile_cons] at h
    by_cases hc : p c
    · simp only [hc, if_true] at h
      exact List.mem_cons_of_mem c (ih h)
    · simp only [hc, if_false] at h
      exact h

lemma dropWhile_append_all (p : Char → Bool) (t rest : PyStr) (h : t.all p = true) :
    (t ++ rest).dropWhile p = rest.dropWhile p := by
  induction t with
  | nil => rfl
  | cons c t ih =>
    simp only [List.all_cons, Bool.and_eq_true] at h
    simp [List.dropWhile_cons, h.1, ih h.2]

lemma dropWhile_first_false (p : Char → Bool) (t rest : PyStr)
    (h : ∃ x ∈ t, p x = false) :
    ∃ c' t'', t.dropWhile p = c' :: t'' ∧ c' ∈ t ∧ p c' = false ∧
      (t ++ rest).dropWhile p = c' :: (t'' ++ rest) := by
  induction t with
  | nil => simp at h
  | cons c t ih =>
    by_cases hc : p c
    · obtain ⟨x, hx, hpx⟩ := h
      rcases List.mem_cons.mp hx with rfl | hx'
      · rw [hc] at hpx; cases hpx
      · obtain ⟨c', t'', e1, e2, e3, e4⟩ := ih ⟨x, hx', hpx⟩
        exact ⟨c', t'', by simp [List.dropWhile_cons, hc, e1],
          List.mem_cons_of_mem c e2, e3, by simp [List.dropWhile_cons, hc, e4]⟩
    · exact ⟨c, t, by simp [List.dropWhile_cons, hc],
        List.mem_cons_self c t, Bool.eq_false_iff.mpr hc, by simp [List.dropWhile_cons, hc]⟩

lemma drop_takeWhile_length (p : Char → Bool) (cs : PyStr) :
    cs.drop (cs.takeWhile p).length = cs.dropWhile p := by
  induction cs with
  | nil => rfl
  | cons c t ih =>
    by_cases hc : p c
    · simp [List.takeWhile_cons, List.dropWhile_cons, hc, ih]
    · simp [List.takeWhile_cons, List.dropWhile_cons, hc]

lemma matchAlt2_eq (cs : PyStr) :
    matchAlt2 cs =
      if ticks3.isPrefixOf (cs.dropWhile isPySpace) then
        some ((cs.takeWhile isPySpace).length + 3)
      else none := by
  rw [matchAlt2, drop_takeWhile_length]

lemma ticks3_isPrefixOf_cons_false (c : Char) (Y : PyStr) (h : c ≠ '\x60') :
    ticks3.isPrefixOf (c :: Y) = false := by
  have hb : ('\x60' == c) = false := beq_eq_false_iff_ne.mpr fun e => h e.symm
  show (('\x60' == c) && _) = false
  simp [hb]

lemma dashes_isPrefixOf_cons_false (c : Char) (Y : PyStr) (h : c ≠ '-') :
    dashes.isPrefixOf (c :: Y) = false := by
  have hb : ('-' == c) = false := beq_eq_false_iff_ne.mpr fun e => h e.symm
  show (('-' == c) && _) = false
  simp [hb]

lemma matchAlt1_none_of_head (c : Char) (X : PyStr) (h : c ≠ '-') :
    matchAlt1 (c :: X) = none := by
  rw [matchAlt1, dashes_isPrefixOf_cons_false c X h]
  rfl

lemma exists_nonWs_of_not_all (t : PyStr) (hall : ¬ t.all isPySpace = true) :
    ∃ x ∈ t, isPySpace x = false := by
  by_contra hno
  push_neg at hno
  refine hall (List.all_eq_true.mpr fun x hxm => ?_)
  cases hb : isPySpace x
  · exact absurd hb (hno x hxm)
  · rfl

lemma matchAlt2_none_of_exists (t rest : PyStr) (ht : t.all charOK = true)
    (hx : ∃ x ∈ t, isPySpace x = false) :
    matchAlt2 (t ++ rest) = none := by
  rw [matchAlt2_eq]
  obtain ⟨c', t'', _, hmem, hpw, e4⟩ := dropWhile_first_false isPySpace t rest hx
  rw [e4]
  have hcOK := charOK_spec c' (List.all_eq_true.mp ht c' hmem)
  rw [ticks3_isPrefixOf_cons_false c' _ hcOK.2]
  rfl

lemma matchAlt2_none_of_first (t rest : PyStr) (ht : t.all charOK = true)
    (hrest : ticks3.isPrefixOf (afterWs rest) = false) :
    matchAlt2 (t ++ rest) = none := by
  by_cases hall : t.all isPySpace
  · rw [matchAlt2_eq, dropWhile_append_all isPySpace t rest hall]
    rw [afterWs] at hrest
    simp [hrest]
  · exact matchAlt2_none_of_exists t rest ht (exists_nonWs_of_not_all t hall)

lemma matchMarker_none (cs : PyStr) (h1 : matchAlt1 cs = none) (h2 : matchAlt2 cs = none) :
    matchMarker cs = none := by
  rw [matchMarker, h1, h2]

lemma endsNonWs_cons (c : Char) (t : PyStr) (h : t ≠ []) :
    endsNonWs (c :: t) = endsNonWs t := by
  rw [endsNonWs, endsNonWs, show lastChar 'x' (c :: t) = lastChar c t from rfl,
    lastChar_irrel t c 'x' h]

lemma noMatchIn_append (m : PyStr → Option Nat) (ls : Bool) (u v rest : PyStr) :
    noMatchIn m ls (u ++ v) rest =
      (noMatchIn m ls u (v ++ rest) && noMatchIn m (lsAfter ls u) v rest) := by
  induction u generalizing ls with
  | nil => simp [noMatchIn, lsAfter]
  | cons c u ih =>
    simp only [List.cons_append, noMatchIn, List.append_assoc, List.append_eq, lsAfter]
    rw [ih, Bool.and_assoc]

lemma lsAfter_false_noNl (u : PyStr) (h : '\n' ∉ u) : lsAfter false u = false := by
  induction u with
  | nil => rfl
  | cons c u ih =>
    have hc : c ≠ '\n' := fun e => h (e ▸ List.mem_cons_self c u)
    show lsAfter (decide (c = '\n')) u = false
    rw [decide_eq_false hc]
    exact ih fun hm => h (List.mem_cons_of_mem c hm)

lemma noMatchIn_false_noNl (m : PyStr → Option Nat) (u rest : PyStr) (h : '\n' ∉ u) :
    noMatchIn m false u rest = true := by
  induction u with
  | nil => rfl
  | cons c u ih =>
    have hc : c ≠ '\n' := fun e => h (e ▸ List.mem_cons_self c u)
    rw [noMatchIn, decide_eq_false hc]
    simp only [Bool.not_false, Bool.true_or, Bool.true_and]
    exact ih fun hm => h (List.mem_cons_of_mem c hm)

lemma noMatchIn_marker_endsNonWs (t rest : PyStr) (ls : Bool)
    (h1 : t.all charOK = true) (h2 : endsNonWs t = true) :
    noMatchIn matchMarker ls t rest = true := by
  induction t generalizing ls with
  | nil => rfl
  | cons c t ih =>
    simp only [List.all_cons, Bool.and_eq_true] at h1
    have h2' : endsNonWs t = true := by
      cases ht : t with
      | nil => rfl
      | cons c' t' => rw [← ht]; rw [← endsNonWs_cons c t (by rw [ht]; simp)]; exact h2
    have hmm : matchMarker (c :: (t ++ rest)) = none := by
      refine matchMarker_none _ (matchAlt1_none_of_head c _ (charOK_spec c h1.1).1) ?_
      have : (c :: t) ++ rest = c :: (t ++ rest) := rfl
      rw [← this]
      refine matchAlt2_none_of_exists (c :: t) rest ?_ ?_
      · simp [List.all_cons, h1.1, h1.2]
      · exact exists_nonWs_of_endsNonWs (c :: t) (by simp) h2
    rw [noMatchIn, hmm]
    simp only [Option.isNone_none, Bool.or_true, Bool.true_and]
    exact ih (c = '\n') h1.2 h2'

lemma noMatchIn_marker_rest (t rest : PyStr) (ls : Bool)
    (h1 : t.all charOK = true) (h3 : ticks3.isPrefixOf (afterWs rest) = false) :
    noMatchIn matchMarker ls t rest = true := by
  induction t generalizing ls with
  | nil => rfl
  | cons c t ih =>
    simp only [List.all_cons, Bool.and_eq_true] at h1
    have hmm : matchMarker (c :: (t ++ rest)) = none := by
      refine matchMarker_none _ (matchAlt1_none_of_head c _ (charOK_spec c h1.1).1) ?_
      have : (c :: t) ++ rest = c :: (t ++ rest) := rfl
      rw [← this]
      exact matchAlt2_none_of_first (c :: t) rest (by simp [List.all_cons, h1.1, h1.2]) h3
    rw [noMatchIn, hmm]
    simp only [Option.isNone_none, Bool.or_true, Bool.true_and]
    exact ih (c = '\n') h1.2

/-!
### `findClose` lemmas
-/

lemma isPrefixOf_append_self (l X : PyStr) : l.isPrefixOf (l ++ X) = true := by
  induction l with
  | nil => simp [List.isPrefixOf]
  | cons c l ih => simp [List.isPrefixOf, ih]

lemma fcMiss_append (pat : PyStr) (u v rest : PyStr) (prev : Char) :
    fcMiss pat (u ++ v) prev rest =
      (fcMiss pat u prev (v ++ rest) && fcMiss pat v (lastChar prev u) rest) := by
  induction u generalizing prev with
  | nil => simp [fcMiss, lastChar]
  | cons c u ih =>
    simp only [List.cons_append, fcMiss, List.append_assoc, List.append_eq, lastChar]
    rw [ih, Bool.and_assoc]

lemma fcMiss_noNewline (pat : PyStr) (u rest : PyStr) (prev : Char)
    (hprev : prev ≠ '\n') (h : '\n' ∉ u) : fcMiss pat u prev rest = true := by
  induction u generalizing prev with
  | nil => rfl
  | cons c u ih =>
    have hc : c ≠ '\n' := fun e => h (e ▸ List.mem_cons_self c u)
    rw [fcMiss]
    have hb : (prev == '\n') = false := beq_eq_false_iff_ne.mpr hprev
    rw [hb]
    simp only [Bool.false_and, Bool.not_false, Bool.true_and]
    exact ih c hc fun hm => h (List.mem_cons_of_mem c hm)

lemma fcMiss_singleton (pat : PyStr) (c : Char) (rest : PyStr) (prev : Char)
    (hprev : prev ≠ '\n') : fcMiss pat [c] prev rest = true := by
  rw [fcMiss, show (prev == '\n') = false from beq_eq_false_iff_ne.mpr hprev]
  simp [fcMiss]

lemma all_eq_false_of_exists (p : Char → Bool) (t : PyStr) (hx : ∃ x ∈ t, p x = false) :
    t.all p = false := by
  refine Bool.eq_false_iff.mpr fun hall => ?_
  obtain ⟨x, hm, hpx⟩ := hx
  have := List.all_eq_true.mp hall x hm
  rw [hpx] at this
  exact Bool.false_ne_true this

lemma noWsTail_of_endsNonWs (t : PyStr) (h2 : endsNonWs t = true) (prev : Char) :
    noWsTail prev t = true := by
  induction t generalizing prev with
  | nil => rfl
  | cons c t ih =>
    have h2' : endsNonWs t = true := by
      cases ht : t with
      | nil => rfl
      | cons c' t' => rw [← ht, ← endsNonWs_cons c t (by rw [ht]; simp)]; exact h2
    have hnall : (c :: t).all isPySpace = false :=
      all_eq_false_of_exists _ _ (exists_nonWs_of_endsNonWs (c :: t) (by simp) h2)
    rw [noWsTail, hnall]
    simp only [Bool.and_false, Bool.not_false, Bool.true_and]
    exact ih h2' c

lemma fcMiss_noWsTail (pat : PyStr) (t rest : PyStr) (prev : Char)
    (hpat : ∀ (c : Char) (Y : PyStr), charOK c = true → pat.isPrefixOf (c :: Y) = false)
    (h1 : t.all charOK = true) (h2 : noWsTail prev t = true) :
    fcMiss pat t prev rest = true := by
  induction t generalizing prev with
  | nil => rfl
  | cons c t ih =>
    rw [noWsTail, Bool.and_eq_true] at h2
    simp only [List.all_cons, Bool.and_eq_true] at h1
    rw [fcMiss]
    have hcheck : ((prev == '\n') && pat.isPrefixOf (afterWs ((c :: t) ++ rest))) = false := by
      by_cases hp : prev = '\n'
      · have hnall : (c :: t).all isPySpace = false := by
          have hx := h2.1
          rw [hp] at hx
          cases hb : (c :: t).all isPySpace
          · rfl
          · rw [hb] at hx; simp at hx
        obtain ⟨c', t'', _, hmem, hpw, e4⟩ := dropWhile_first_false isPySpace (c :: t) rest
          (exists_nonWs_of_not_all (c :: t) (by rw [hnall]; exact Bool.false_ne_true))
        rw [afterWs, e4, hpat c' _ (List.all_eq_true.mp (by simp [List.all_cons, h1.1, h1.2]) c' hmem)]
        simp
      · rw [beq_eq_false_iff_ne.mpr hp]
        simp
    rw [hcheck]
    simp only [Bool.not_false, Bool.true_and]
    exact ih c h1.2 h2.2

lemma findClose_append (pat : PyStr) (t rest : PyStr) (prev : Char)
    (h : fcMiss pat t prev rest = true) :
    findClose pat (t ++ rest) prev =
      Option.map (· + t.length) (findClose pat rest (lastChar prev t)) := by
  induction t generalizing prev with
  | nil =>
    cases h2 : findClose pat rest prev <;> simp [lastChar, h2]
  | cons c t ih =>
    rw [fcMiss, Bool.and_eq_true] at h
    have hcheck : ((prev == '\n') && pat.isPrefixOf (afterWs ((c :: t) ++ rest))) = false := by
      cases hb : ((prev == '\n') && pat.isPrefixOf (afterWs ((c :: t) ++ rest)))
      · rfl
      · rw [hb] at h; simp at h
    simp only [List.cons_append] at hcheck ⊢
    rw [findClose, hcheck]
    simp only [if_false, Bool.false_eq_true]
    rw [ih c h.2]
    rw [show lastChar prev (c :: t) = lastChar c t from rfl]
    cases hX : findClose pat rest (lastChar c t) <;> simp [hX]
    omega

lemma findClose_here (pat X : PyStr) (hhead : headNonWs pat = true) :
    findClose pat (pat ++ X) '\n' = some 0 := by
  cases hp : pat with
  | nil => rw [hp] at hhead; cases hhead
  | cons p ps =>
    show findClose (p :: ps) (p :: (ps ++ X)) '\n' = some 0
    rw [findClose]
    have h1 : afterWs (p :: (ps ++ X)) = p :: (ps ++ X) := by
      rw [afterWs]
      exact dropWhile_of_headNonWs _ (by rw [hp] at hhead; exact hhead)
    rw [h1, show p :: (ps ++ X) = (p :: ps) ++ X from rfl, isPrefixOf_append_self]
    simp

/-!
### Match values on rendered documents
-/

lemma matchMarker_open (t : PyStr) (htw : t.takeWhile isPySpace = []) :
    matchMarker (dashes ++ '\n' :: t) = some 4 := by
  have h1 : matchAlt1 (dashes ++ '\n' :: t) = some 4 := by
    rw [matchAlt1, isPrefixOf_append_self]
    have hd : (dashes ++ '\n' :: t).drop 3 = '\n' :: t := rfl
    rw [if_pos rfl, hd]
    have htw2 : ('\n' :: t).takeWhile isPySpace = ['\n'] := by
      rw [List.takeWhile_cons]
      simp only [show isPySpace '\n' = true from rfl, if_true, htw]
    rw [htw2]
    rfl
  rw [matchMarker, h1]

lemma matchMarker_ticks (t : PyStr) : matchMarker (ticks3 ++ t) = some 3 := by
  have h1 : matchAlt1 (ticks3 ++ t) = none := by
    show matchAlt1 ('\x60' :: ('\x60' :: '\x60' :: t)) = none
    exact matchAlt1_none_of_head '\x60' _ (by decide)
  have h2 : matchAlt2 (ticks3 ++ t) = some 3 := by
    rw [matchAlt2_eq]
    have hdw : (ticks3 ++ t).dropWhile isPySpace = ticks3 ++ t :=
      dropWhile_of_headNonWs _ rfl
    have htw : (ticks3 ++ t).takeWhile isPySpace = [] :=
      takeWhile_nil_of_headNonWs _ rfl
    rw [hdw, isPrefixOf_append_self, htw]
    rfl
  rw [matchMarker, h1, h2]

lemma wfFm_parts (fm : PyStr) (hfm : wfFm fm = true) :
    (pyStrip fm).isEmpty = false ∧ fm.all charOK = true ∧ headNonWs fm = true ∧
      lastChar ' ' fm = '\n' ∧ noWsTail '\n' fm = true := by
  rw [wfFm] at hfm
  simp only [Bool.and_eq_true] at hfm
  refine ⟨?_, hfm.1.1.1.2, hfm.1.1.2, ?_, hfm.2⟩
  · have := hfm.1.1.1.1
    cases hb : (pyStrip fm).isEmpty
    · rfl
    · rw [hb] at this; simp at this
  · exact eq_of_beq hfm.1.2

lemma matchA_render (fm F : PyStr) (hfm : wfFm fm = true)
    (hFtw : F.takeWhile isPySpace = []) :
    matchA (dashes ++ '\n' :: (fm ++ (dashes ++ '\n' :: F))) = some (fm.length + 8) := by
  obtain ⟨_, hok, hhead, hlast, hnws⟩ := wfFm_parts fm hfm
  have hfmne : fm ≠ [] := by cases fm <;> simp_all [headNonWs]
  have c1 : (dashes ++ '\n' :: (fm ++ (dashes ++ '\n' :: F))).takeWhile isPySpace = [] :=
    takeWhile_nil_of_headNonWs _ rfl
  have c2 : dashes.isPrefixOf (dashes ++ '\n' :: (fm ++ (dashes ++ '\n' :: F))) = true :=
    isPrefixOf_append_self _ _
  have c4 : ('\n' :: (fm ++ (dashes ++ '\n' :: F))).takeWhile isPySpace = ['\n'] := by
    rw [List.takeWhile_cons]
    simp only [show isPySpace '\n' = true from rfl, if_true]
    rw [takeWhile_nil_of_headNonWs _ (by rw [headNonWs_append _ _ hfmne]; exact hhead)]
  have c5 : findClose dashes (fm ++ (dashes ++ '\n' :: F)) '\n' = some (0 + fm.length) := by
    rw [findClose_append dashes fm _ '\n' (fcMiss_noWsTail dashes fm _ '\n'
      (fun c Y hc => dashes_isPrefixOf_cons_false c Y (charOK_spec c hc).1) hok hnws)]
    have hlc : lastChar '\n' fm = '\n' := by
      rw [lastChar_irrel fm '\n' ' ' hfmne]; exact hlast
    rw [hlc, findClose_here dashes ('\n' :: F) rfl]
    rfl
  have hlen1 : (['\n'] : PyStr).length = 1 := rfl
  have c6 : ('\n' :: (fm ++ (dashes ++ '\n' :: F))).drop ((['\n'] : PyStr).length + (0 + fm.length))
      = dashes ++ '\n' :: F := by
    rw [hlen1, show 1 + (0 + fm.length) = fm.length + 1 from by omega, List.drop_succ_cons]
    exact List.drop_left fm _
  have c7 : (dashes ++ '\n' :: F).takeWhile isPySpace = [] :=
    takeWhile_nil_of_headNonWs _ rfl
  have c8 : ('\n' :: F).takeWhile isPySpace = ['\n'] := by
    rw [List.takeWhile_cons]
    simp only [show isPySpace '\n' = true from rfl, if_true, hFtw]
  rw [matchA]
  simp only [c1, List.length_nil, List.drop_zero, c2, if_true]
  have c3 : (dashes ++ '\n' :: (fm ++ (dashes ++ '\n' :: F))).drop 3
      = '\n' :: (fm ++ (dashes ++ '\n' :: F)) := rfl
  rw [c3, c4]
  have c9 : ('\n' :: (fm ++ (dashes ++ '\n' :: F))).drop (['\n'] : PyStr).length
      = fm ++ (dashes ++ '\n' :: F) := rfl
  have cLast : (['\n'] : PyStr).getLastD '-' = '\n' := rfl
  rw [c9, cLast, c5]
  simp only [c6, c7]
  have c10 : (dashes ++ '\n' :: F).drop ((([] : PyStr)).length + 3) = '\n' :: F := rfl
  rw [c10, c8]
  congr 1
  simp only [hlen1, List.length_nil]
  omega

lemma wfName_parts (n : PyStr) (hn : wfName n = true) :
    n ≠ [] ∧ n.all pyIsWordChar = true := by
  rw [wfName] at hn
  simp only [Bool.and_eq_true] at hn
  refine ⟨?_, hn.2⟩
  cases n
  · simp at hn
  · simp

lemma wfBody_parts (b : PyStr) (hb : wfBody b = true) :
    b ≠ [] ∧ b.all charOK = true ∧ headNonWs b = true ∧ endsNonWs b = true := by
  rw [wfBody] at hb
  simp only [Bool.and_eq_true] at hb
  refine ⟨?_, hb.1.1.2, hb.1.2, hb.2⟩
  cases b
  · simp at hb
  · simp

lemma newline_not_in_name (n : PyStr) (hw : n.all pyIsWordChar = true) : '\n' ∉ n := by
  intro hm
  have := List.all_eq_true.mp hw '\n' hm
  exact absurd this (by decide)

lemma lastChar_name_ne_newline (n : PyStr) (hne : n ≠ []) (hw : n.all pyIsWordChar = true)
    (d : Char) : lastChar d n ≠ '\n' := by
  intro he
  have hmem := lastChar_mem d n hne
  rw [he] at hmem
  exact newline_not_in_name n hw hmem

lemma lastChar_body_ne_newline (b : PyStr) (hne : b ≠ []) (hends : endsNonWs b = true)
    (d : Char) : lastChar d b ≠ '\n' := by
  intro he
  rw [endsNonWs, lastChar_irrel b 'x' d hne, he] at hends
  exact absurd hends (by decide)

lemma newline_not_in_hdr (n : PyStr) (hw : n.all pyIsWordChar = true) :
    '\n' ∉ bashTag ++ ' ' :: nameEq ++ n := by
  intro hm
  rcases List.mem_append.mp hm with h | h
  · rcases List.mem_append.mp h with h' | h'
    · exact absurd h' (by decide)
    · rcases List.mem_cons.mp h' with h'' | h''
      · exact absurd h'' (by decide)
      · exact absurd h'' (by decide)
  · exact newline_not_in_name n hw h

lemma matchB_fence (n b F' : PyStr) (hn : wfName n = true) (hb : wfBody b = true)
    (hFtw : F'.takeWhile isPySpace = []) :
    matchB (fenceText n b ++ F') =
      some ((bashTag ++ ' ' :: nameEq ++ n ++ '\n' :: (b ++ ['\n'])).length + 7) := by
  obtain ⟨hnne, hword⟩ := wfName_parts n hn
  obtain ⟨hbne, hbok, hbhead, hbends⟩ := wfBody_parts b hb
  have hsplit : fenceText n b ++ F' =
      ticks3 ++ ((bashTag ++ ' ' :: nameEq ++ n ++ '\n' :: (b ++ ['\n'])) ++
        (ticks3 ++ '\n' :: F')) := by
    rw [fenceText]
    simp [List.append_assoc]
  rw [hsplit]
  have hcs : headNonWs (ticks3 ++ ((bashTag ++ ' ' :: nameEq ++ n ++ '\n' :: (b ++ ['\n'])) ++
      (ticks3 ++ '\n' :: F'))) = true := rfl
  have c1 : (ticks3 ++ ((bashTag ++ ' ' :: nameEq ++ n ++ '\n' :: (b ++ ['\n'])) ++
      (ticks3 ++ '\n' :: F'))).takeWhile isPySpace = [] := takeWhile_nil_of_headNonWs _ hcs
  have c2 := isPrefixOf_append_self ticks3 ((bashTag ++ ' ' :: nameEq ++ n ++ '\n' :: (b ++ ['\n'])) ++
      (ticks3 ++ '\n' :: F'))
  -- the closing-fence search
  have hdrSplit : bashTag ++ ' ' :: nameEq ++ n ++ '\n' :: (b ++ ['\n']) =
      (bashTag ++ ' ' :: nameEq ++ n) ++ ('\n' :: (b ++ ['\n'])) := by
    simp [List.append_assoc]
  have hlcHdr : lastChar '\x60' (bashTag ++ ' ' :: nameEq ++ n) ≠ '\n' := by
    rw [lastChar_append]
    exact lastChar_name_ne_newline n hnne hword _
  have hmiss : fcMiss ticks3 (bashTag ++ ' ' :: nameEq ++ n ++ '\n' :: (b ++ ['\n'])) '\x60'
      (ticks3 ++ '\n' :: F') = true := by
    rw [hdrSplit, fcMiss_append]
    refine (Bool.and_eq_true _ _).mpr ⟨?_, ?_⟩
    · exact fcMiss_noNewline _ _ _ _ (by decide) (newline_not_in_hdr n hword)
    · have hsplit2 : ('\n' :: (b ++ ['\n'])) = ['\n'] ++ (b ++ ['\n']) := rfl
      rw [hsplit2, fcMiss_append]
      refine (Bool.and_eq_true _ _).mpr ⟨?_, ?_⟩
      · exact fcMiss_singleton _ _ _ _ hlcHdr
      · rw [show lastChar (lastChar '\x60' (bashTag ++ ' ' :: nameEq ++ n)) ['\n'] = '\n' from rfl]
        rw [fcMiss_append]
        refine (Bool.and_eq_true _ _).mpr ⟨?_, ?_⟩
        · exact fcMiss_noWsTail ticks3 b _ '\n'
            (fun c Y hc => ticks3_isPrefixOf_cons_false c Y (charOK_spec c hc).2)
            hbok (noWsTail_of_endsNonWs b hbends '\n')
        · exact fcMiss_singleton _ _ _ _ (lastChar_body_ne_newline b hbne hbends '\n')
  have hlcSkip : lastChar '\x60' (bashTag ++ ' ' :: nameEq ++ n ++ '\n' :: (b ++ ['\n'])) = '\n' := by
    rw [hdrSplit, lastChar_append]
    rw [show ('\n' :: (b ++ ['\n'])) = ('\n' :: b) ++ ['\n'] from by simp]
    rw [lastChar_append]
    rfl
  have c5 : findClose ticks3 ((bashTag ++ ' ' :: nameEq ++ n ++ '\n' :: (b ++ ['\n'])) ++
      (ticks3 ++ '\n' :: F')) '\x60' =
      some (0 + (bashTag ++ ' ' :: nameEq ++ n ++ '\n' :: (b ++ ['\n'])).length) := by
    rw [findClose_append _ _ _ _ hmiss, hlcSkip, findClose_here ticks3 ('\n' :: F') rfl]
    rfl
  rw [matchB]
  simp only [c1, List.length_nil, List.drop_zero, c2, if_true]
  have c3 : (ticks3 ++ ((bashTag ++ ' ' :: nameEq ++ n ++ '\n' :: (b ++ ['\n'])) ++
      (ticks3 ++ '\n' :: F'))).drop 3 =
      (bashTag ++ ' ' :: nameEq ++ n ++ '\n' :: (b ++ ['\n'])) ++ (ticks3 ++ '\n' :: F') := rfl
  rw [c3, c5]
  have c6 : ((bashTag ++ ' ' :: nameEq ++ n ++ '\n' :: (b ++ ['\n'])) ++
      (ticks3 ++ '\n' :: F')).drop
        (0 + (bashTag ++ ' ' :: nameEq ++ n ++ '\n' :: (b ++ ['\n'])).length) =
      ticks3 ++ '\n' :: F' := by
    rw [Nat.zero_add]
    exact List.drop_left _ _
  have c7 : (ticks3 ++ '\n' :: F').takeWhile isPySpace = [] := takeWhile_nil_of_headNonWs _ rfl
  have c8 : (ticks3 ++ '\n' :: F').drop ((([] : PyStr)).length + 3) = '\n' :: F' := rfl
  have c9 : ('\n' :: F').takeWhile isPySpace = ['\n'] := by
    rw [List.takeWhile_cons]
    simp only [show isPySpace '\n' = true from rfl, if_true, hFtw]
  simp only [c6, c7, c8, c9]
  congr 1
  simp only [List.length_nil, List.length_cons]
  omega

/-!
### The prose check accepts rendered documents
-/

lemma lsAfter_true_of_last (t : PyStr) (b0 : Bool) (hne : t ≠ [])
    (h : lastChar ' ' t = '\n') : lsAfter b0 t = true := by
  induction t generalizing b0 with
  | nil => exact absurd rfl hne
  | cons c t ih =>
    show lsAfter (decide (c = '\n')) t = true
    cases ht : t with
    | nil =>
      rw [ht] at h
      have hc : c = '\n' := h
      rw [hc]
      rfl
    | cons c' t' =>
      rw [← ht]
      refine ih _ (by rw [ht]; simp) ?_
      rw [lastChar_cons_of_ne_nil ' ' ' ' c t (by rw [ht]; simp)] at h
      exact h

lemma lsAfter_false_of_ends (t : PyStr) (b0 : Bool) (hne : t ≠ [])
    (h : lastChar 'x' t ≠ '\n') : lsAfter b0 t = false := by
  induction t generalizing b0 with
  | nil => exact absurd rfl hne
  | cons c t ih =>
    show lsAfter (decide (c = '\n')) t = false
    cases ht : t with
    | nil =>
      rw [ht] at h
      have hc : c ≠ '\n' := h
      exact decide_eq_false hc
    | cons c' t' =>
      rw [← ht]
      refine ih _ (by rw [ht]; simp) ?_
      rw [lastChar_cons_of_ne_nil 'x' 'x' c t (by rw [ht]; simp)] at h
      exact h

lemma not_mem_of_all_ne (x : Char) (l : PyStr) (h : l.all (fun c => !(c == x)) = true) :
    x ∉ l := by
  intro hm
  have := List.all_eq_true.mp h x hm
  simp at this

lemma takeWhile_append_of_all (p : Char → Bool) (u v : PyStr) (hu : u.all p = true) :
    (u ++ v).takeWhile p = u ++ v.takeWhile p := by
  induction u with
  | nil => rfl
  | cons c u ih =>
    simp only [List.all_cons, Bool.and_eq_true] at hu
    simp [List.takeWhile_cons, hu.1, ih hu.2]

lemma matchA_none_no_dash (cs : PyStr) (h : '-' ∉ cs) : matchA cs = none := by
  rw [matchA]
  have hp : dashes.isPrefixOf (cs.drop (cs.takeWhile isPySpace).length) = false := by
    rw [drop_takeWhile_length]
    cases hd : cs.dropWhile isPySpace with
    | nil => rfl
    | cons c r =>
      refine dashes_isPrefixOf_cons_false c r fun he => ?_
      refine h (mem_of_dropWhile isPySpace cs '-' ?_)
      rw [hd, ← he]
      exact List.mem_cons_self c r
  rw [hp]
  rfl

lemma noMatchIn_matchA (t rest : PyStr) (ls : Bool) (ht : '-' ∉ t) (hr : '-' ∉ rest) :
    noMatchIn matchA ls t rest = true := by
  induction t generalizing ls with
  | nil => rfl
  | cons c t ih =>
    have hm : matchA (c :: (t ++ rest)) = none := by
      refine matchA_none_no_dash _ fun hmem => ?_
      rcases List.mem_cons.mp hmem with h | h
      · exact ht (List.mem_cons.mpr (Or.inl h))
      · rcases List.mem_append.mp h with h | h
        · exact ht (List.mem_cons_of_mem c h)
        · exact hr h
    rw [noMatchIn, hm]
    simp only [Option.isNone_none, Bool.or_true, Bool.true_and]
    exact ih (c = '\n') fun hm2 => ht (List.mem_cons_of_mem c hm2)

lemma dash_not_in_name (n : PyStr) (hw : n.all pyIsWordChar = true) : '-' ∉ n := by
  intro hm
  have := List.all_eq_true.mp hw '-' hm
  exact absurd this (by decide)

lemma dash_not_in_body (b : PyStr) (hok : b.all charOK = true) : '-' ∉ b := by
  intro hm
  have := List.all_eq_true.mp hok '-' hm
  exact absurd this (by decide)

lemma no_dash_fenceText (n b : PyStr) (hn : wfName n = true) (hb : wfBody b = true) :
    '-' ∉ fenceText n b := by
  obtain ⟨_, hword⟩ := wfName_parts n hn
  obtain ⟨_, hbok, _, _⟩ := wfBody_parts b hb
  have hnall : n.all (fun c => !(c == '-')) = true :=
    List.all_eq_true.mpr fun x hx => by
      have hw := List.all_eq_true.mp hword x hx
      simp only [Bool.not_eq_true', beq_eq_false_iff_ne, ne_eq]
      intro he
      rw [he] at hw
      exact absurd hw (by decide)
  have hball : b.all (fun c => !(c == '-')) = true :=
    List.all_eq_true.mpr fun x hx => by
      have hw := List.all_eq_true.mp hbok x hx
      simp only [Bool.not_eq_true', beq_eq_false_iff_ne, ne_eq]
      intro he
      rw [he] at hw
      exact absurd hw (by decide)
  refine not_mem_of_all_ne '-' _ ?_
  rw [fenceText]
  simp only [List.all_append, List.all_cons, hnall, hball, Bool.and_true, Bool.true_and]
  decide

lemma wfBlocks_parts (p : PyStr × PyStr) (rest : List (PyStr × PyStr))
    (hwf : wfBlocks (p :: rest) = true) :
    wfName p.1 = true ∧ wfBody p.2 = true ∧ wfBlocks rest = true := by
  rw [wfBlocks, List.all_cons] at hwf
  simp only [Bool.and_eq_true] at hwf
  exact ⟨hwf.1.1, hwf.1.2, hwf.2⟩

lemma no_dash_fencesText (bs : List (PyStr × PyStr)) (hwf : wfBlocks bs = true) :
    '-' ∉ fencesText bs := by
  induction bs with
  | nil => simp [fencesText]
  | cons p rest ih =>
    obtain ⟨hn, hb, hr⟩ := wfBlocks_parts p rest hwf
    obtain ⟨n, b⟩ := p
    intro hm
    rw [fencesText] at hm
    rcases List.mem_append.mp hm with h | h
    · exact no_dash_fenceText n b hn hb h
    · exact ih hr h

lemma fencesText_takeWhile_nil (bs : List (PyStr × PyStr)) :
    (fencesText bs).takeWhile isPySpace = [] := by
  cases bs with
  | nil => rfl
  | cons p rest =>
    obtain ⟨n, b⟩ := p
    exact takeWhile_nil_of_headNonWs _ rfl

lemma subDashes_render (fm : PyStr) (bs : List (PyStr × PyStr))
    (hfm : wfFm fm = true) (hbs : wfBlocks bs = true) :
    subDashes (render fm bs) = fencesText bs := by
  have hmv := matchA_render fm (fencesText bs) hfm (fencesText_takeWhile_nil bs)
  have hshape : render fm bs =
      ('-' :: (['-', '-', '\n'] ++ (fm ++ ['-', '-', '-', '\n']))) ++ fencesText bs := by
    rw [render, dashes]
    simp [List.append_assoc]
  have hlen : fm.length + 8 = (['-', '-', '\n'] ++ (fm ++ ['-', '-', '-', '\n'])).length + 1 := by
    simp only [List.length_append, List.length_cons, List.length_nil]
    omega
  have hm2 : matchA ('-' :: ((['-', '-', '\n'] ++ (fm ++ ['-', '-', '-', '\n'])) ++ fencesText bs))
      = some ((['-', '-', '\n'] ++ (fm ++ ['-', '-', '-', '\n'])).length + 1) := by
    have he : '-' :: ((['-', '-', '\n'] ++ (fm ++ ['-', '-', '-', '\n'])) ++ fencesText bs)
        = render fm bs := by
      rw [hshape]
      simp [List.append_assoc]
    rw [he, render, hmv, hlen]
  rw [subDashes, hshape, subScan_match matchA '-' _ _ hm2]
  have hls : lsAfter false (['-', '-', '\n'] ++ (fm ++ ['-', '-', '-', '\n'])) = true := by
    rw [lsAfter_append]
    refine lsAfter_true_of_last _ _ (by simp) ?_
    rw [lastChar_append]
    rfl
  rw [hls]
  exact subScan_all matchA (fencesText bs) true
    (noMatchIn_matchA _ [] true (no_dash_fencesText bs hbs) (by simp))

lemma subTicks_fences (bs : List (PyStr × PyStr)) (hwf : wfBlocks bs = true) :
    subScan matchB (fencesText bs) 0 true = [] := by
  induction bs with
  | nil => rfl
  | cons p rest ih =>
    obtain ⟨hn, hb, hr⟩ := wfBlocks_parts p rest hwf
    obtain ⟨n, b⟩ := p
    have hmv := matchB_fence n b (fencesText rest) hn hb (fencesText_takeWhile_nil rest)
    have hshape : fencesText ((n, b) :: rest) =
        ('\x60' :: (['\x60', '\x60'] ++
          ((bashTag ++ ' ' :: nameEq ++ n ++ '\n' :: (b ++ ['\n'])) ++
            ['\x60', '\x60', '\x60', '\n']))) ++ fencesText rest := by
      rw [fencesText, fenceText, ticks3]
      simp [List.append_assoc]
    have hlen : (bashTag ++ ' ' :: nameEq ++ n ++ '\n' :: (b ++ ['\n'])).length + 7 =
        (['\x60', '\x60'] ++
          ((bashTag ++ ' ' :: nameEq ++ n ++ '\n' :: (b ++ ['\n'])) ++
            ['\x60', '\x60', '\x60', '\n'])).length + 1 := by
      simp only [List.length_append, List.length_cons, List.length_nil]
      omega
    have hm2 : matchB ('\x60' :: ((['\x60', '\x60'] ++
        ((bashTag ++ ' ' :: nameEq ++ n ++ '\n' :: (b ++ ['\n'])) ++
          ['\x60', '\x60', '\x60', '\n'])) ++ fencesText rest))
        = some ((['\x60', '\x60'] ++
          ((bashTag ++ ' ' :: nameEq ++ n ++ '\n' :: (b ++ ['\n'])) ++
            ['\x60', '\x60', '\x60', '\n'])).length + 1) := by
      have he : '\x60' :: ((['\x60', '\x60'] ++
          ((bashTag ++ ' ' :: nameEq ++ n ++ '\n' :: (b ++ ['\n'])) ++
            ['\x60', '\x60', '\x60', '\n'])) ++ fencesText rest)
          = fenceText n b ++ fencesText rest := by
        rw [fenceText, ticks3]
        simp [List.append_assoc]
      rw [he, hmv, hlen]
    rw [hshape, subScan_match matchB '\x60' _ _ hm2]
    have hls : lsAfter false (['\x60', '\x60'] ++
        ((bashTag ++ ' ' :: nameEq ++ n ++ '\n' :: (b ++ ['\n'])) ++
          ['\x60', '\x60', '\x60', '\n'])) = true := by
      rw [lsAfter_append, lsAfter_append]
      refine lsAfter_true_of_last _ _ (by simp) ?_
      rfl
    rw [hls]
    exact ih hr

lemma proseResidue_render (fm : PyStr) (bs : List (PyStr × PyStr))
    (hfm : wfFm fm = true) (hbs : wfBlocks bs = true) :
    proseResidue (render fm bs) = [] := by
  rw [proseResidue, subDashes_render fm bs hfm hbs, subTicks]
  exact subTicks_fences bs hbs

/-!
### The fence split on rendered documents
-/

lemma noMatchIn_singleton_newline (m : PyStr → Option Nat) (rest : PyStr) :
    noMatchIn m false ['\n'] rest = true := by
  simp [noMatchIn]

lemma scanA_fences (bs : List (PyStr × PyStr)) (hwf : wfBlocks bs = true) (acc : PyStr) :
    scanA (fencesText bs) 0 true acc = acc :: segsOf bs := by
  induction bs generalizing acc with
  | nil => rfl
  | cons p rest ih =>
    obtain ⟨hn, hb, hr⟩ := wfBlocks_parts p rest hwf
    obtain ⟨n, b⟩ := p
    obtain ⟨hnne, hword⟩ := wfName_parts n hn
    obtain ⟨hbne, hbok, hbhead, hbends⟩ := wfBody_parts b hb
    have hshape : fencesText ((n, b) :: rest) =
        ('\x60' :: ['\x60', '\x60']) ++
          (((bashTag ++ ' ' :: nameEq ++ n) ++ (['\n'] ++ (b ++ ['\n']))) ++
            (('\x60' :: ['\x60', '\x60']) ++ (['\n'] ++ fencesText rest))) := by
      rw [fencesText, fenceText, ticks3]
      simp [List.append_assoc]
    rw [hshape]
    -- opening fence match
    have hm1 : matchMarker ('\x60' :: (['\x60', '\x60'] ++
        (((bashTag ++ ' ' :: nameEq ++ n) ++ (['\n'] ++ (b ++ ['\n']))) ++
          (('\x60' :: ['\x60', '\x60']) ++ (['\n'] ++ fencesText rest)))))
        = some (['\x60', '\x60'].length + 1) := by
      have he : '\x60' :: (['\x60', '\x60'] ++
          (((bashTag ++ ' ' :: nameEq ++ n) ++ (['\n'] ++ (b ++ ['\n']))) ++
            (('\x60' :: ['\x60', '\x60']) ++ (['\n'] ++ fencesText rest))))
          = ticks3 ++ (((bashTag ++ ' ' :: nameEq ++ n) ++ (['\n'] ++ (b ++ ['\n']))) ++
            (('\x60' :: ['\x60', '\x60']) ++ (['\n'] ++ fencesText rest))) := by
        rw [ticks3]
        rfl
      rw [he, matchMarker_ticks]
      rfl
    rw [scanA_match '\x60' _ _ acc hm1]
    rw [show lsAfter false ['\x60', '\x60'] = false from rfl]
    -- scan through the header line and the body
    have hthrough : noMatchIn matchMarker false
        ((bashTag ++ ' ' :: nameEq ++ n) ++ (['\n'] ++ (b ++ ['\n'])))
        (('\x60' :: ['\x60', '\x60']) ++ (['\n'] ++ fencesText rest)) = true := by
      rw [noMatchIn_append]
      refine (Bool.and_eq_true _ _).mpr ⟨?_, ?_⟩
      · exact noMatchIn_false_noNl matchMarker _ _ (newline_not_in_hdr n hword)
      · rw [lsAfter_false_noNl _ (newline_not_in_hdr n hword)]
        rw [noMatchIn_append]
        refine (Bool.and_eq_true _ _).mpr ⟨noMatchIn_singleton_newline matchMarker _, ?_⟩
        rw [show lsAfter false ['\n'] = true from rfl]
        rw [noMatchIn_append]
        refine (Bool.and_eq_true _ _).mpr ⟨?_, ?_⟩
        · exact noMatchIn_marker_endsNonWs b _ true hbok hbends
        · rw [lsAfter_false_of_ends b true hbne (lastChar_body_ne_newline b hbne hbends 'x')]
          exact noMatchIn_singleton_newline matchMarker _
    rw [scanA_through _ _ false [] hthrough]
    have hls2 : lsAfter false ((bashTag ++ ' ' :: nameEq ++ n) ++ (['\n'] ++ (b ++ ['\n'])))
        = true := by
      refine lsAfter_true_of_last _ _ (by simp) ?_
      rw [lastChar_append, show (['\n'] ++ (b ++ ['\n'])) = ('\n' :: b) ++ ['\n'] from by simp,
        lastChar_append]
      rfl
    rw [hls2]
    have hu : ([] : PyStr) ++ ((bashTag ++ ' ' :: nameEq ++ n) ++ (['\n'] ++ (b ++ ['\n'])))
        = hdrSeg n b := by
      rw [hdrSeg]
      simp [List.append_assoc]
    rw [hu]
    have hm2 : matchMarker ('\x60' :: (['\x60', '\x60'] ++ (['\n'] ++ fencesText rest)))
        = some (['\x60', '\x60'].length + 1) := by
      have he : '\x60' :: (['\x60', '\x60'] ++ (['\n'] ++ fencesText rest))
          = ticks3 ++ (['\n'] ++ fencesText rest) := by
        rw [ticks3]
        rfl
      rw [he, matchMarker_ticks]
      rfl
    rw [show (('\x60' :: ['\x60', '\x60']) ++ (['\n'] ++ fencesText rest))
        = ('\x60' :: ['\x60', '\x60']) ++ (['\n'] ++ fencesText rest) from rfl]
    rw [scanA_match '\x60' _ _ (hdrSeg n b) hm2]
    rw [show lsAfter false ['\x60', '\x60'] = false from rfl]
    rw [scanA_through ['\n'] (fencesText rest) false []
      (noMatchIn_singleton_newline matchMarker _)]
    rw [show lsAfter false ['\n'] = true from rfl]
    rw [show ([] : PyStr) ++ ['\n'] = ['\n'] from rfl]
    rw [ih hr ['\n']]
    rw [segsOf]
    rfl

lemma pySplit_render (fm : PyStr) (bs : List (PyStr × PyStr))
    (hfm : wfFm fm = true) (hbs : wfBlocks bs = true) :
    pySplit (render fm bs) = [] :: fm :: [] :: segsOf bs := by
  obtain ⟨_, hok, hhead, hlast, _⟩ := wfFm_parts fm hfm
  have hfmne : fm ≠ [] := by cases fm <;> simp_all [headNonWs]
  have htw : (fm ++ (dashes ++ '\n' :: fencesText bs)).takeWhile isPySpace = [] :=
    takeWhile_nil_of_headNonWs _ (by rw [headNonWs_append _ _ hfmne]; exact hhead)
  rw [pySplit]
  have hshape : render fm bs =
      ('-' :: ['-', '-', '\n']) ++ (fm ++ (dashes ++ '\n' :: fencesText bs)) := by
    rw [render, dashes]
    rfl
  have hm1 : matchMarker ('-' :: (['-', '-', '\n'] ++ (fm ++ (dashes ++ '\n' :: fencesText bs))))
      = some (['-', '-', '\n'].length + 1) := by
    have he : '-' :: (['-', '-', '\n'] ++ (fm ++ (dashes ++ '\n' :: fencesText bs)))
        = dashes ++ '\n' :: (fm ++ (dashes ++ '\n' :: fencesText bs)) := by
      rw [dashes]
      rfl
    rw [he, matchMarker_open _ htw]
    rfl
  rw [hshape, scanA_match '-' _ _ [] hm1]
  rw [show lsAfter false ['-', '-', '\n'] = true from rfl]
  have hthrough : noMatchIn matchMarker true fm (dashes ++ '\n' :: fencesText bs) = true := by
    refine noMatchIn_marker_rest fm _ true hok ?_
    have he : afterWs (dashes ++ '\n' :: fencesText bs) = dashes ++ '\n' :: fencesText bs := by
      rw [afterWs]
      exact dropWhile_of_headNonWs _ rfl
    rw [he]
    exact ticks3_isPrefixOf_cons_false '-' _ (by decide)
  rw [scanA_through fm _ true [] hthrough]
  rw [lsAfter_true_of_last fm true hfmne hlast]
  rw [show ([] : PyStr) ++ fm = fm from rfl]
  have hm2 : matchMarker ('-' :: (['-', '-', '\n'] ++ fencesText bs))
      = some (['-', '-', '\n'].length + 1) := by
    have he : '-' :: (['-', '-', '\n'] ++ fencesText bs) = dashes ++ '\n' :: fencesText bs := by
      rw [dashes]
      rfl
    rw [he, matchMarker_open _ (fencesText_takeWhile_nil bs)]
    rfl
  rw [show dashes ++ '\n' :: fencesText bs = ('-' :: ['-', '-', '\n']) ++ fencesText bs from by
    rw [dashes]
    rfl]
  rw [scanA_match '-' _ _ fm hm2]
  rw [show lsAfter false ['-', '-', '\n'] = true from rfl]
  rw [scanA_fences bs hbs []]

/-!
### The segment walk on rendered documents
-/

lemma nameEq_isPrefixOf_cons_false (c : Char) (Y : PyStr) (h : c ≠ 'n') :
    nameEq.isPrefixOf (c :: Y) = false := by
  have hb : ('n' == c) = false := beq_eq_false_iff_ne.mpr fun e => h e.symm
  show (('n' == c) && _) = false
  simp [hb]

lemma reSearchName_step (c : Char) (rest : PyStr) (h : c ≠ 'n') :
    reSearchName (c :: rest) = reSearchName rest := by
  rw [reSearchName, nameEq_isPrefixOf_cons_false c rest h]
  simp

lemma reSearchName_found (n tail : PyStr) (hnne : n ≠ []) (hword : n.all pyIsWordChar = true) :
    reSearchName (nameEq ++ (n ++ '\n' :: tail)) = some n := by
  show reSearchName ('n' :: ('a' :: 'm' :: 'e' :: '=' :: (n ++ '\n' :: tail))) = some n
  rw [reSearchName]
  have hpre : nameEq.isPrefixOf ('n' :: ('a' :: 'm' :: 'e' :: '=' :: (n ++ '\n' :: tail)))
      = true := isPrefixOf_append_self nameEq (n ++ '\n' :: tail)
  have hdrop : ('n' :: ('a' :: 'm' :: 'e' :: '=' :: (n ++ '\n' :: tail))).drop 5
      = n ++ '\n' :: tail := rfl
  have hg : (n ++ '\n' :: tail).takeWhile pyIsWordChar = n := by
    rw [takeWhile_append_of_all pyIsWordChar n _ hword, List.takeWhile_cons]
    simp [show pyIsWordChar '\n' = false from rfl]
  rw [hdrop, hg, hpre]
  have hne2 : n.isEmpty = false := by cases n <;> simp_all
  simp [hne2]

lemma reSearchName_hdr (n tail : PyStr) (hnne : n ≠ []) (hword : n.all pyIsWordChar = true) :
    reSearchName ('b' :: 'a' :: 's' :: 'h' :: ' ' :: (nameEq ++ (n ++ '\n' :: tail)))
      = some n := by
  rw [reSearchName_step 'b' _ (by decide), reSearchName_step 'a' _ (by decide),
    reSearchName_step 's' _ (by decide), reSearchName_step 'h' _ (by decide),
    reSearchName_step ' ' _ (by decide)]
  exact reSearchName_found n tail hnne hword

lemma pyStrip_hdrSeg (n b : PyStr) (_hn : wfName n = true) (hb : wfBody b = true) :
    pyStrip (hdrSeg n b) = bashTag ++ ' ' :: nameEq ++ n ++ '\n' :: b := by
  obtain ⟨hbne, _, _, hbends⟩ := wfBody_parts b hb
  have hform : hdrSeg n b = (bashTag ++ ' ' :: nameEq ++ n ++ '\n' :: b) ++ ['\n'] := by
    rw [hdrSeg]
    simp [List.append_assoc]
  rw [hform]
  refine pyStrip_sandwich _ rfl ?_
  have : bashTag ++ ' ' :: nameEq ++ n ++ '\n' :: b
      = (bashTag ++ ' ' :: nameEq ++ n ++ ['\n']) ++ b := by
    simp [List.append_assoc]
  rw [this, endsNonWs_append _ b hbne]
  exact hbends

lemma yamlTag_not_prefix_of_bash (X : PyStr) :
    yamlTag.isPrefixOf ('b' :: X) = false := by
  show (('y' == 'b') && _) = false
  simp [show ('y' == 'b') = false from by decide]

/-- Name bookkeeping of the walk on canonical fence segments: check each
name against the seen set in order, adding the (empty) collected body. -/
def walkNames : List (PyStr × PyStr) → List PyStr → List PyStr →
    Except ParseError (List PyStr × List PyStr)
  | [], names, acc => .ok (names, acc)
  | (n, _) :: rest, names, acc =>
    if n ∈ names then .error .duplicateBlockName
    else walkNames rest (names ++ [n]) (acc ++ [[]])

lemma walkSegs_segsOf (bs : List (PyStr × PyStr)) (hwf : wfBlocks bs = true)
    (names acc : List PyStr) :
    walkSegs (segsOf bs) names acc = walkNames bs names acc := by
  induction bs generalizing names acc with
  | nil => rfl
  | cons p rest ih =>
    obtain ⟨hn, hb, hr⟩ := wfBlocks_parts p rest hwf
    obtain ⟨n, b⟩ := p
    obtain ⟨hnne, hword⟩ := wfName_parts n hn
    show walkSegs (hdrSeg n b :: ['\n'] :: segsOf rest) names acc = _
    rw [walkSegs]
    rw [pyStrip_hdrSeg n b hn hb]
    rw [show bashTag ++ ' ' :: nameEq ++ n ++ '\n' :: b
        = 'b' :: 'a' :: 's' :: 'h' :: ' ' :: (nameEq ++ (n ++ '\n' :: b)) from by
      simp [bashTag, List.append_assoc]]
    rw [yamlTag_not_prefix_of_bash]
    rw [show bashTag.isPrefixOf
        ('b' :: 'a' :: 's' :: 'h' :: ' ' :: (nameEq ++ (n ++ '\n' :: b))) = true from
      isPrefixOf_append_self bashTag (' ' :: (nameEq ++ (n ++ '\n' :: b)))]
    rw [reSearchName_hdr n b hnne hword]
    simp only [Bool.false_eq_true, if_false, if_true]
    by_cases hmem : n ∈ names
    · simp only [hmem, if_true]
      rw [walkNames, if_pos hmem]
    · simp only [hmem, if_false]
      rw [walkNames, if_neg hmem]
      rw [show pyStrip ['\n'] = [] from rfl]
      exact ih hr (names ++ [n]) (acc ++ [[]])

lemma walkNames_ok_nodup (bs : List (PyStr × PyStr)) (names acc : List PyStr)
    (out : List PyStr × List PyStr) (h : walkNames bs names acc = .ok out) :
    (bs.map fun p => p.1).Nodup ∧ ∀ nm ∈ bs.map (fun p => p.1), nm ∉ names := by
  induction bs generalizing names acc with
  | nil => simp
  | cons p rest ih =>
    obtain ⟨n, b⟩ := p
    rw [walkNames] at h
    by_cases hmem : n ∈ names
    · rw [if_pos hmem] at h; cases h
    · rw [if_neg hmem] at h
      obtain ⟨hnd, hfresh⟩ := ih (names ++ [n]) (acc ++ [[]]) h
      constructor
      · rw [List.map_cons, List.nodup_cons]
        refine ⟨fun hmm => ?_, hnd⟩
        exact absurd (List.mem_append.mpr (Or.inr (List.mem_singleton.mpr rfl)))
          (hfresh n hmm)
      · intro nm hm
        rw [List.map_cons, List.mem_cons] at hm
        rcases hm with rfl | hm
        · exact hmem
        · intro hin
          exact hfresh nm hm (List.mem_append.mpr (Or.inl hin))

lemma walkNames_total (bs : List (PyStr × PyStr)) (names acc : List PyStr) :
    walkNames bs names acc = .error .duplicateBlockName ∨
      ∃ out, walkNames bs names acc = .ok out := by
  induction bs generalizing names acc with
  | nil => exact Or.inr ⟨(names, acc), rfl⟩
  | cons p rest ih =>
    obtain ⟨n, b⟩ := p
    rw [walkNames]
    by_cases hmem : n ∈ names
    · rw [if_pos hmem]; exact Or.inl rfl
    · rw [if_neg hmem]; exact ih (names ++ [n]) (acc ++ [[]])

lemma walkNames_dup (bs : List (PyStr × PyStr))
    (h : ¬ (bs.map fun p => p.1).Nodup) (names acc : List PyStr) :
    walkNames bs names acc = .error .duplicateBlockName := by
  rcases walkNames_total bs names acc with he | ⟨out, hok⟩
  · exact he
  · exact absurd (walkNames_ok_nodup bs names acc out hok).1 h

/-!
### Structural facts about accepted documents
-/

lemma takeWhile_all (p : Char → Bool) (l : PyStr) : (l.takeWhile p).all p = true := by
  induction l with
  | nil => rfl
  | cons c t ih =>
    rw [List.takeWhile_cons]
    by_cases hc : p c <;> simp [hc, ih]

lemma reSearchName_some (s g : PyStr) (h : reSearchName s = some g) :
    g ≠ [] ∧ g.all pyIsWordChar = true := by
  induction s with
  | nil => cases h
  | cons c rest ih =>
    rw [reSearchName] at h
    cases hcond : (nameEq.isPrefixOf (c :: rest) &&
        !(((c :: rest).drop 5).takeWhile pyIsWordChar).isEmpty) with
    | false =>
      rw [hcond] at h
      simp only [Bool.false_eq_true, if_false] at h
      exact ih h
    | true =>
      rw [hcond] at h
      simp only [if_true] at h
      injection h with hg
      subst hg
      refine ⟨?_, takeWhile_all pyIsWordChar _⟩
      have hne := ((Bool.and_eq_true _ _).mp hcond).2
      intro he
      rw [he] at hne
      simp at hne

lemma walkSegs_names_inv (k : Nat) : ∀ (segs : List PyStr), segs.length ≤ k →
    ∀ (names acc : List PyStr) (out : List PyStr × List PyStr),
    (∀ nm ∈ names, nm ≠ [] ∧ nm.all pyIsWordChar = true) →
    walkSegs segs names acc = .ok out →
    ∀ nm ∈ out.1, nm ≠ [] ∧ nm.all pyIsWordChar = true := by
  induction k with
  | zero =>
    intro segs hle names acc out hinv h
    cases segs with
    | nil =>
      rw [walkSegs] at h
      injection h with h2
      rw [← h2]
      exact hinv
    | cons p rest => simp at hle
  | succ k ih =>
    intro segs hle names acc out hinv h
    cases segs with
    | nil =>
      rw [walkSegs] at h
      injection h with h2
      rw [← h2]
      exact hinv
    | cons p rest =>
      rw [walkSegs.eq_def] at h
      simp only [] at h
      rw [List.length_cons] at hle
      by_cases hy : yamlTag.isPrefixOf (pyStrip p) = true
      · rw [if_pos hy] at h
        cases rest with
        | nil =>
          injection h with h2
          rw [← h2]
          exact hinv
        | cons q rest2 =>
          exact ih rest2 (by simp at hle ⊢; omega) names acc out hinv h
      · rw [if_neg hy] at h
        by_cases hbsh : bashTag.isPrefixOf (pyStrip p) = true
        · rw [if_pos hbsh] at h
          cases rest with
          | nil => cases h
          | cons p2 rest2 =>
            cases hs : reSearchName (pyStrip p) with
            | none => rw [hs] at h; cases h
            | some nm =>
              rw [hs] at h
              simp only [] at h
              by_cases hmem : nm ∈ names
              · rw [if_pos hmem] at h; cases h
              · rw [if_neg hmem] at h
                refine ih rest2 (by simp at hle ⊢; omega) (names ++ [nm]) _ out ?_ h
                intro m hm
                rcases List.mem_append.mp hm with hm | hm
                · exact hinv m hm
                · rw [List.mem_singleton] at hm
                  subst hm
                  exact reSearchName_some _ _ hs
        · rw [if_neg hbsh] at h
          by_cases hemp : (pyStrip p).isEmpty = true
          · rw [if_pos hemp] at h
            exact ih rest (by omega) names acc out hinv h
          · rw [if_neg hemp] at h
            cases h

/-- On a rendered document the parser reduces to the name walk over the
structured blocks: the front-matter guard, the prose residue check and the
YAML load all pass, and the segment walk is `walkNames`. -/
lemma parse_core_render {α : Type} (yl : PyStr → Except PyStr α) (v : α)
    (fm : PyStr) (bs : List (PyStr × PyStr))
    (hfm : wfFm fm = true) (hbs : wfBlocks bs = true) (hy : yl fm = .ok v) :
    parse_core yl (render fm bs) =
      match walkNames bs [] [] with
      | .error e => .error e
      | .ok (names, blocks) =>
        if blocks.isEmpty then .error .noBashBlocks else .ok ⟨v, names, blocks⟩ := by
  have hok := (wfFm_parts fm hfm).1
  simp only [parse_core]
  simp only [pySplit_render fm bs hfm hbs]
  have hc1 : ¬ ((([] :: fm :: [] :: segsOf bs).length < 3 ||
      (pyStrip (([] :: fm :: [] :: segsOf bs).getD 1 [])).isEmpty) = true) := by
    simp [hok]
  rw [if_neg hc1, proseResidue_render fm bs hfm hbs]
  rw [if_neg (by decide : ¬ ((!(pyStrip ([] : PyStr)).isEmpty) = true))]
  rw [show (([] :: fm :: [] :: segsOf bs).getD 1 ([] : PyStr)) = fm from rfl, hy]
  simp only []
  rw [show (([] :: fm :: [] :: segsOf bs).drop 2) = [] :: segsOf bs from rfl]
  have hskip : walkSegs ([] :: segsOf bs) [] [] = walkSegs (segsOf bs) [] [] := by
    rw [walkSegs.eq_def]
    rfl
  rw [hskip, walkSegs_segsOf bs hbs [] []]

/-- C8: on any well-formed rendered document whose block-name list has a
repeat anywhere, parsing fails with `duplicateBlockName`, whatever the
YAML loader returns for the front matter. -/
theorem duplicate_block_names_always_rejected {α : Type}
    (yl : PyStr → Except PyStr α) (v : α)
    (fm : PyStr) (bs : List (PyStr × PyStr))
    (hfm : wfFm fm = true) (hbs : wfBlocks bs = true) (hy : yl fm = .ok v)
    (hdup : ¬ (bs.map fun p => p.1).Nodup) :
    parse_markdown yl (render fm bs) = .error .duplicateBlockName := by
  rw [parse_markdown, parse_core_render yl v fm bs hfm hbs hy,
    walkNames_dup bs hdup [] []]
  rfl

/-- Witness for C8: the two-block document with both blocks named
build is rejected as a duplicate. -/
theorem duplicate_block_names_always_rejected_witness :
    parse_markdown yamlRaw (render "slash: x\n".toList
      [("build".toList, "echo a".toList), ("build".toList, "echo b".toList)]) =
      .error .duplicateBlockName :=
  duplicate_block_names_always_rejected yamlRaw "slash: x\n".toList
    "slash: x\n".toList
    [("build".toList, "echo a".toList), ("build".toList, "echo b".toList)]
    (by decide) (by decide) rfl (by decide)

/-- C7 (amended): whenever the front-matter presence guard passes and the
text left after deleting the two `re.sub` match sets has non-whitespace
content, parsing fails with `strayContent` — for every YAML loader. -/
theorem stray_residue_rejected {α : Type} (yl : PyStr → Except PyStr α)
    (content : PyStr)
    (h1 : ((pySplit content).length < 3 ||
      (pyStrip ((pySplit content).getD 1 [])).isEmpty) = false)
    (h2 : (pyStrip (proseResidue content)).isEmpty = false) :
    parse_markdown yl content = .error .strayContent := by
  rw [parse_markdown, parse_core]
  rw [if_neg (fun hcc => by rw [h1] at hcc; exact Bool.false_ne_true hcc)]
  rw [if_pos (by rw [h2]; rfl)]
  rfl

/-- Witness for C7: a document with prose between the front matter and the
fence is rejected as stray content. -/
theorem stray_residue_rejected_witness :
    parse_markdown yamlRaw
      "---\na: 1\n---\nhello\n\x60\x60\x60bash name=b\nx\n\x60\x60\x60\n".toList =
      .error .strayContent :=
  stray_residue_rejected yamlRaw
    "---\na: 1\n---\nhello\n\x60\x60\x60bash name=b\nx\n\x60\x60\x60\n".toList
    (by decide) (by decide)

/-- Counterexample for C7 as frozen: a fence tagged bashful is not
reported as stray content (the deleting regex matches every fence whatever
its tag, and the walk accepts it because the Python test is
startswith per source line 83); the document parses successfully, with the
stray fence contributing a block. -/
theorem bashful_fence_not_stray :
    parse_markdown yamlRaw
      "---\na: 1\n---\n\x60\x60\x60bashful name=q\nx\n\x60\x60\x60\n".toList =
      .ok ("a: 1\n".toList, [[]]) := by decide

/-!
### Documents with no split markers at all
-/

lemma containsSeq_cons_false (pat : PyStr) (c : Char) (r : PyStr)
    (h : containsSeq pat (c :: r) = false) :
    pat.isPrefixOf (c :: r) = false ∧ containsSeq pat r = false := by
  rw [containsSeq] at h
  simp only [Bool.or_eq_false_iff] at h
  exact h

lemma isPrefixOf_false_of_not_contains (pat l : PyStr) (hp : pat ≠ [])
    (h : containsSeq pat l = false) : pat.isPrefixOf l = false := by
  cases l with
  | nil =>
    cases pat with
    | nil => exact absurd rfl hp
    | cons a t => rfl
  | cons c r => exact (containsSeq_cons_false pat c r h).1

lemma containsSeq_dropWhile (pat : PyStr) (p : Char → Bool) (l : PyStr)
    (h : containsSeq pat l = false) : containsSeq pat (l.dropWhile p) = false := by
  induction l with
  | nil => simpa using h
  | cons c r ih =>
    rw [List.dropWhile_cons]
    by_cases hc : p c = true
    · rw [if_pos hc]
      exact ih (containsSeq_cons_false pat c r h).2
    · rw [if_neg hc]
      exact h

lemma noMatchIn_of_no_markers (ls : Bool) (u : PyStr)
    (h1 : containsSeq dashes u = false) (h2 : containsSeq ticks3 u = false) :
    noMatchIn matchMarker ls u [] = true := by
  induction u generalizing ls with
  | nil => rfl
  | cons c r ih =>
    obtain ⟨hp1, hr1⟩ := containsSeq_cons_false _ _ _ h1
    obtain ⟨hp2, hr2⟩ := containsSeq_cons_false _ _ _ h2
    rw [noMatchIn]
    refine (Bool.and_eq_true _ _).mpr ⟨?_, ih (c = '\n') hr1 hr2⟩
    rw [List.append_nil]
    have ha1 : matchAlt1 (c :: r) = none := by
      rw [matchAlt1, if_neg (fun hcc => Bool.false_ne_true (hp1 ▸ hcc))]
    have ha2 : matchAlt2 (c :: r) = none := by
      rw [matchAlt2]
      rw [drop_takeWhile_length]
      have hpt : ticks3.isPrefixOf ((c :: r).dropWhile isPySpace) = false :=
        isPrefixOf_false_of_not_contains _ _ (by decide)
          (containsSeq_dropWhile ticks3 isPySpace (c :: r) h2)
      rw [hpt]
      rfl
    have hm : matchMarker (c :: r) = none := by
      rw [matchMarker, ha1, ha2]
    rw [hm]
    simp

lemma pySplit_no_markers (content : PyStr)
    (h1 : containsSeq dashes content = false)
    (h2 : containsSeq ticks3 content = false) :
    pySplit content = [content] := by
  have h := scanA_through content [] true []
    (noMatchIn_of_no_markers true content h1 h2)
  rw [List.append_nil] at h
  rw [pySplit, h]
  rfl

/-- C6 (amended): any input that contains neither a --- run nor a
triple-backtick run anywhere fails with `missingFrontMatter`, for every
YAML loader. -/
theorem no_marker_missing_front_matter {α : Type} (yl : PyStr → Except PyStr α)
    (content : PyStr)
    (h1 : containsSeq dashes content = false)
    (h2 : containsSeq ticks3 content = false) :
    parse_markdown yl content = .error .missingFrontMatter := by
  rw [parse_markdown, parse_core, pySplit_no_markers content h1 h2]
  have hc : (([content] : List PyStr).length < 3 ||
      (pyStrip (([content] : List PyStr).getD 1 [])).isEmpty) = true := by
    simp
  rw [if_pos hc]
  rfl

/-- Witness for C6 (amended): plain prose with no markers is rejected as
missing front matter. -/
theorem no_marker_missing_front_matter_witness :
    containsSeq dashes "hello".toList = false ∧
      parse_markdown yamlRaw "hello".toList = .error .missingFrontMatter :=
  ⟨by decide, no_marker_missing_front_matter yamlRaw "hello".toList
    (by decide) (by decide)⟩

/-- Counterexample for C6 as frozen: this input has no YAML front-matter
block (it contains no --- line at all), yet parsing fails with
`strayContent`, not `missingFrontMatter` — the fence makes the split
produce three parts whose middle is non-blank, so the front-matter guard
passes and the prose check fires first on the leading x. -/
theorem no_front_matter_stray_error :
    containsSeq dashes "x\n\x60\x60\x60bash name=a\ny\n\x60\x60\x60\n".toList = false ∧
      parse_markdown yamlRaw "x\n\x60\x60\x60bash name=a\ny\n\x60\x60\x60\n".toList =
        .error .strayContent := by decide

/-- C9 (amended): on a document made of Latin-1 characters — the range on
which this file's character tables coincide with Python's str classes —
every block name the parser accepts is a nonempty run of characters
matching Python's \x5cw, since the name is a nonempty takeWhile of that
predicate.  (Beyond Latin-1 Python's \x5cw is Unicode-wide: the program
also accepts names like δ, so no fixed sub-alphabet bounds unscoped
documents.) -/
theorem parsed_names_are_word_runs {α : Type} (yl : PyStr → Except PyStr α)
    (content : PyStr) (names : List PyStr)
    (_hl : content.all isLatin1 = true)
    (h : parse_names yl content = .ok names) :
    ∀ nm ∈ names, nm ≠ [] ∧ nm.all pyIsWordChar = true := by
  rw [parse_names] at h
  cases hc : parse_core yl content with
  | error e => rw [hc] at h; cases h
  | ok r =>
    rw [hc] at h
    rw [show Except.map (fun r : ParseOut α => r.names) (Except.ok r) =
      Except.ok r.names from rfl] at h
    injection h with h2
    simp only [parse_core] at hc
    by_cases h1 : (((pySplit content).length < 3 ||
        (pyStrip ((pySplit content).getD 1 [])).isEmpty) = true)
    · rw [if_pos h1] at hc; cases hc
    · rw [if_neg h1] at hc
      by_cases hpr : ((!(pyStrip (proseResidue content)).isEmpty) = true)
      · rw [if_pos hpr] at hc; cases hc
      · rw [if_neg hpr] at hc
        cases hy : yl ((pySplit content).getD 1 []) with
        | error e => rw [hy] at hc; cases hc
        | ok v =>
          rw [hy] at hc
          simp only [] at hc
          cases hw : walkSegs ((pySplit content).drop 2) [] [] with
          | error e => rw [hw] at hc; cases hc
          | ok pr =>
            obtain ⟨names0, blocks0⟩ := pr
            rw [hw] at hc
            simp only [] at hc
            by_cases hb : (blocks0.isEmpty = true)
            · rw [if_pos hb] at hc; cases hc
            · rw [if_neg hb] at hc
              injection hc with hr
              subst hr
              rw [← h2]
              exact walkSegs_names_inv ((pySplit content).drop 2).length
                ((pySplit content).drop 2) le_rfl [] [] (names0, blocks0)
                (fun nm hnm => absurd hnm (List.not_mem_nil nm)) hw

/-- Witness for C9 (amended): applying the invariant to a concrete
Latin-1 accepted document shows its single name b is a nonempty word
run. -/
theorem parsed_names_are_word_runs_witness :
    ("b".toList ≠ [] ∧ "b".toList.all pyIsWordChar = true) :=
  parsed_names_are_word_runs yamlRaw
    "---\na: 1\n---\n\x60\x60\x60bash name=b\nx\n\x60\x60\x60\n".toList
    ["b".toList] (by decide) (by decide) "b".toList (List.mem_singleton.mpr rfl)

/-- Counterexample for C9 as frozen: the parser accepts the name é, which
is not an ASCII letter, digit or underscore — Python's \x5cw on str
matches Latin-1 letters too. -/
theorem unicode_name_accepted :
    parse_names yamlRaw
      "---\na: 1\n---\n\x60\x60\x60bash name=é\necho hi\n\x60\x60\x60\n".toList =
      .ok [['é']] ∧ asciiWordChar 'é' = false := by decide
